import Mathlib

/-!
# Verification of the `variable_inspector` recursive inspection engine

This file is a shallow embedding, in Lean 4, of `variable_inspector.py`:
the recursive inspection engine `inspect_any` / `inspect_recursive` together
with its helpers `get_type_info`, `register_renderer`, `should_include_attribute`,
`sample_large_collection` and `calculate_dynamic_max_depth`.

Modelling conventions:

* A Python runtime value is modelled by the inductive type `PyVal`.  Every
  value carries an explicit identity `pid : Nat`, modelling Python's `id()`:
  two occurrences of the same `pid` in a tree model two references to the
  same object.  Container constructors carry an optional subclass tag
  (`subty`) so that `type(v)` (exact runtime type, used for `max_depth` and
  renderer lookup) and `isinstance` (constructor shape) can disagree, as they
  do in Python for subclasses.
* Exceptions are modelled by `Except PyErr`; a Python function that can raise
  is embedded as a Lean function into `Except PyErr _`.
* `inspect.signature` (an external library call) is modelled by the outcome it
  produces on a given callable, stored in the value: `SigOutcome` is either a
  signature string, or one of its two documented failure modes
  (`ValueError` / `TypeError`).
* `random.sample` (an external library call) is modelled by an abstract
  `Sampler`: any function returning, for `k ≤ l.length`, `k` elements of `l`
  chosen without replacement.  The two fields `mem_of_sample` / `length_sample`
  are the documented contract of `random.sample`.
* `repr` is modelled by `pyRepr`; `vOpaque` values carry `none` when their
  `repr` raises (exercising the `safe_repr` fallback).
* The impure metadata stamper (`get_inspection_metadata`: clock + platform) is
  modelled as a `Metadata` value passed to `inspect_any` from outside.
* Console printing is presentation-only (read-only consumers of the result
  tree) and is not modelled.
-/

set_option maxHeartbeats 1000000
set_option maxRecDepth 8000

namespace VariableInspector

/-- Outcome of the external call `inspect.signature(obj)` on a callable:
either a signature string, or one of the failure modes documented for it
(`ValueError` when no signature can be determined, `TypeError` for an
unsupported object, e.g. a tampered `__signature__`). -/
inductive SigOutcome where
  | sigOk (s : String)
  | raisesValueError
  | raisesTypeError
deriving DecidableEq

/-- A Python runtime value.  `pid` models `id(value)`; `subty` on the four
built-in container shapes models an exact runtime type that is a subclass of
the built-in (so `isinstance` matches the constructor but `type(v).__name__`
is the tag). -/
inductive PyVal where
  | vNone (pid : Nat)
  | vBool (pid : Nat) (b : Bool)
  | vInt (pid : Nat) (n : Int)
  | vStr (pid : Nat) (s : String)
  | vDict (pid : Nat) (subty : Option String) (entries : List (PyVal × PyVal))
  | vList (pid : Nat) (subty : Option String) (elems : List PyVal)
  | vTuple (pid : Nat) (subty : Option String) (elems : List PyVal)
  | vSet (pid : Nat) (subty : Option String) (elems : List PyVal)
  | vModule (pid : Nat) (modName : String) (members : List (String × PyVal))
  | vClass (pid : Nat) (clsName : String) (sig : SigOutcome) (members : List (String × PyVal))
  | vFunction (pid : Nat) (fnName : String) (sig : SigOutcome)
  | vCoroutine (pid : Nat) (coroName : Option String)
  | vObject (pid : Nat) (tyName : String) (tyModule : String) (attrs : List (String × PyVal))
  | vDatetime (pid : Nat) (iso : String)
  | vOpaque (pid : Nat) (tyName : String) (tyModule : String) (reprR : Option String)
      (callSig : Option SigOutcome)

/-- `id(v)`: the identity of the value. -/
def PyVal.pid : PyVal → Nat
  | .vNone i => i
  | .vBool i _ => i
  | .vInt i _ => i
  | .vStr i _ => i
  | .vDict i _ _ => i
  | .vList i _ _ => i
  | .vTuple i _ _ => i
  | .vSet i _ _ => i
  | .vModule i _ _ => i
  | .vClass i _ _ _ => i
  | .vFunction i _ _ => i
  | .vCoroutine i _ => i
  | .vObject i _ _ _ => i
  | .vDatetime i _ => i
  | .vOpaque i _ _ _ _ => i

/-- `type(v).__name__`: the exact runtime type's name.  For containers the
subclass tag wins when present (a subclass instance has the subclass as its
runtime type, while `isinstance` against the base still holds). -/
def runtimeType : PyVal → String
  | .vNone _ => "NoneType"
  | .vBool _ _ => "bool"
  | .vInt _ _ => "int"
  | .vStr _ _ => "str"
  | .vDict _ st _ => st.getD "dict"
  | .vList _ st _ => st.getD "list"
  | .vTuple _ st _ => st.getD "tuple"
  | .vSet _ st _ => st.getD "set"
  | .vModule _ _ _ => "module"
  | .vClass _ _ _ _ => "type"
  | .vFunction _ _ _ => "function"
  | .vCoroutine _ _ => "coroutine"
  | .vObject _ t _ _ => t
  | .vDatetime _ _ => "datetime"
  | .vOpaque _ t _ _ _ => t

/-- `type(v).__module__`. -/
def typeModule : PyVal → String
  | .vDatetime _ _ => "datetime"
  | .vObject _ _ m _ => m
  | .vOpaque _ _ m _ _ => m
  | _ => "builtins"

/-- `callable(v)` paired with the outcome `inspect.signature(v)` would have:
functions and classes are callable; an opaque value may be (e.g. a builtin). -/
def callableSig : PyVal → Option SigOutcome
  | .vClass _ _ sig _ => some sig
  | .vFunction _ _ sig => some sig
  | .vOpaque _ _ _ _ cs => cs
  | _ => none

/-- `str(type(v))`, as used in the max-depth marker: `<class 'name'>`. -/
def pyTypeStr (v : PyVal) : String :=
  "<class " ++ "\x27" ++ runtimeType v ++ "\x27>"

/-- `repr(v)`, modelled: `none` means `repr` raises (only opaque values may).
Container and object reprs are abstracted to a short tag; the engine only
applies `repr` to mapping keys and to opaque fallback values. -/
def pyRepr : PyVal → Option String
  | .vNone _ => some "None"
  | .vBool _ b => some (if b then "True" else "False")
  | .vInt _ n => some (toString n)
  | .vStr _ s => some ("\x27" ++ s ++ "\x27")
  | .vOpaque _ _ _ r _ => r
  | v => some ("<" ++ runtimeType v ++ " instance>")

/-- A Python exception escaping a modelled operation. -/
inductive PyErr where
  | valueError
  | typeError
  | rendererError (msg : String)
deriving DecidableEq

/-- `str(e)` for a modelled exception (the text used in the root error
message). -/
def errStr : PyErr → String
  | .valueError => "ValueError"
  | .typeError => "TypeError"
  | .rendererError m => m

/-- The `type_info` record produced by `get_type_info`. -/
structure TypeInfo where
  type_name : String
  module : String
  signature : Option String
deriving DecidableEq

/-- `get_type_info(obj)` (source lines 22–35): type name and module, plus —
for callables — the signature string.  Only `ValueError` from signature
extraction is caught (replaced by the fixed placeholder); any other
exception (e.g. `TypeError`) propagates. -/
def get_type_info (v : PyVal) : Except PyErr TypeInfo :=
  match callableSig v with
  | none => .ok ⟨runtimeType v, typeModule v, none⟩
  | some (.sigOk s) => .ok ⟨runtimeType v, typeModule v, some s⟩
  | some .raisesValueError =>
      .ok ⟨runtimeType v, typeModule v, some "Unable to determine signature"⟩
  | some .raisesTypeError => .error .typeError

/-- `safe_repr(obj)` (source lines 165–170): `repr`, with any failure replaced
by the unprintable-object placeholder. -/
def safe_repr (v : PyVal) : String :=
  match pyRepr v with
  | some s => s
  | none => "<unprintable object of type " ++ runtimeType v ++ ">"

/-- The three reserved member names that are always excluded. -/
def reservedNames : List String := ["__dict__", "__weakref__", "__module__"]

/-- `should_include_attribute(attr_name)` (source lines 172–176). -/
def should_include_attribute (include_private : Bool) (attr_name : String) : Bool :=
  if !include_private && attr_name.startsWith "_" then false
  else !(reservedNames.contains attr_name)

/-- Association-list lookup, modelling Python `dict` lookup / `in`. -/
def assocLookup {α : Type} (l : List (String × α)) (k : String) : Option α :=
  match l with
  | [] => none
  | (k1, v1) :: rest => if k1 = k then some v1 else assocLookup rest k

/-- Association-list insert-or-overwrite, modelling Python `d[k] = v`
(first-insertion position kept, value overwritten). -/
def assocUpsert {α : Type} (l : List (String × α)) (k : String) (v : α) :
    List (String × α) :=
  match l with
  | [] => [(k, v)]
  | (k1, v1) :: rest =>
      if k1 = k then (k, v) :: rest else (k1, v1) :: assocUpsert rest k v

/-- An iterable handed to `sample_large_collection`: either a `dict_items`
view (from the mapping branch) or one of the three built-in sequence shapes.
Python's `isinstance(collection, (list, tuple, set))` is `True` exactly for
the last three. -/
inductive PyCollection where
  | dictItems (pairs : List (PyVal × PyVal))
  | pyList (elems : List PyVal)
  | pyTuple (elems : List PyVal)
  | pySet (elems : List PyVal)

/-- The contract of `random.sample(population, k)`: some choice of `k`
elements of the population, without replacement (so each sampled element is an
element of the population, and for `k ≤ length` exactly `k` are returned).
The actual random choice is abstracted. -/
structure Sampler where
  sample : List PyVal → Nat → List PyVal
  mem_of_sample : ∀ l k x, x ∈ sample l k → x ∈ l
  length_sample : ∀ l k, k ≤ l.length → (sample l k).length = k

/-- `sample_large_collection(collection)` (source lines 178–182): only an
instance of `list`, `tuple` or `set` longer than `sample_size` is replaced by
a random sample of size `sample_size`; anything else — in particular the
`dict_items` view the mapping branch passes in — is returned unchanged. -/
def sample_large_collection (sample_size : Nat) (S : Sampler) :
    PyCollection → PyCollection
  | .dictItems l => .dictItems l
  | .pyList l =>
      if l.length > sample_size then .pyList (S.sample l sample_size) else .pyList l
  | .pyTuple l =>
      if l.length > sample_size then .pyTuple (S.sample l sample_size) else .pyTuple l
  | .pySet l =>
      if l.length > sample_size then .pySet (S.sample l sample_size) else .pySet l

/-- The pairs of a collection produced by the mapping branch. -/
def itemsOf : PyCollection → List (PyVal × PyVal)
  | .dictItems l => l
  | _ => []

/-- The elements of a collection produced by the sequence branch. -/
def elemsOf : PyCollection → List PyVal
  | .dictItems _ => []
  | .pyList l => l
  | .pyTuple l => l
  | .pySet l => l

/-- `len(var)` for the four built-in container shapes (`isinstance`-based, so
subclass instances count), `none` otherwise. -/
def containerLen : PyVal → Option Nat
  | .vDict _ _ entries => some entries.length
  | .vList _ _ elems => some elems.length
  | .vTuple _ _ elems => some elems.length
  | .vSet _ _ elems => some elems.length
  | _ => none

/-- `calculate_dynamic_max_depth(var)` (source lines 184–188):
`min(10, max(1, 7 - len(var) // 100))` for container shapes, else 5.
(Nat subtraction truncates at 0 exactly where Python's `max(1, ...)` would
clamp a negative value to 1, so the two agree.) -/
def calculate_dynamic_max_depth (v : PyVal) : Nat :=
  match containerLen v with
  | some n => min 10 (max 1 (7 - n / 100))
  | none => 5

/-- The engine options of `inspect_any` that the traversal reads
(`max_depth` keyed by exact runtime type, `include_private`, `sample_size`). -/
structure Config where
  max_depth : List (String × Nat)
  include_private : Bool
  sample_size : Nat

/-- The default `max_depth` installed when the caller passes `None`
(source lines 162–163). -/
def defaultMaxDepth : List (String × Nat) :=
  [("dict", 5), ("list", 5), ("tuple", 5), ("set", 5)]

/-- The default configuration of `inspect_any`. -/
def defaultConfig : Config :=
  { max_depth := defaultMaxDepth, include_private := false, sample_size := 100 }

/-- The effective depth limit of a node's value (source line 199):
`max_depth.get(type(var), calculate_dynamic_max_depth(var))`. -/
def effective_depth_limit (cfg : Config) (v : PyVal) : Nat :=
  (assocLookup cfg.max_depth (runtimeType v)).getD (calculate_dynamic_max_depth v)

/-- A custom renderer: may raise (the engine does not guard its call). -/
def Renderer : Type := PyVal → Except PyErr String

/-- The renderer registry `custom_renderers`, keyed by exact runtime type. -/
def Registry : Type := List (String × Renderer)

/-- `register_renderer(type_, renderer)` (source lines 19–20): dict
assignment — insert or overwrite the entry for exactly that runtime type. -/
def register_renderer (reg : Registry) (ty : String) (f : Renderer) : Registry :=
  assocUpsert reg ty f

/-- A scalar stored under the `"value"` key of a result node. -/
inductive ScalarV where
  | sInt (n : Int)
  | sBool (b : Bool)
  | sStr (s : String)
  | sNone
deriving DecidableEq

/-- One node of the inspection result tree, mirroring the result dict of
`inspect_recursive`: the two terminal markers carry only the fields the
source puts in them; every other node carries `name`, `type_info`, the
optional `custom_rendering` overlay, and exactly one content field. -/
inductive Node where
  | circularRef (name : String)
  | maxDepthReached (name : String) (typeStr : String)
  | mappingNode (name : String) (ti : TypeInfo) (custom : Option String)
      (entries : List (String × Node))
  | sequenceNode (name : String) (ti : TypeInfo) (custom : Option String)
      (elems : List Node)
  | moduleNode (name : String) (ti : TypeInfo) (custom : Option String)
      (contents : List (String × TypeInfo))
  | classNode (name : String) (ti : TypeInfo) (custom : Option String)
      (contents : List (String × TypeInfo))
  | signatureNode (name : String) (ti : TypeInfo) (custom : Option String) (sig : String)
  | coroutineNode (name : String) (ti : TypeInfo) (custom : Option String)
      (kind : String) (coroName : String)
  | attributesNode (name : String) (ti : TypeInfo) (custom : Option String)
      (attrs : List (String × Node))
  | scalarNode (name : String) (ti : TypeInfo) (custom : Option String) (v : ScalarV)

/-- Sequentially inspect the elements of a (possibly sampled) list, threading
the shared `seen` set left to right and propagating any exception, exactly as
the list comprehension over `enumerate(...)` at source lines 215–216 does.
The callback receives a membership proof so that the caller's recursion is
well-founded. -/
def foldElems (l : List PyVal) (i : Nat)
    (f : (x : PyVal) → x ∈ l → Nat → List Nat → Except PyErr (Node × List Nat))
    (seen : List Nat) : Except PyErr (List Node × List Nat) :=
  match l with
  | [] => .ok ([], seen)
  | x :: rest => do
      let (n, s1) ← f x (List.mem_cons_self x rest) i seen
      let (ns, s2) ← foldElems rest (i + 1)
        (fun y hy j s => f y (List.mem_cons_of_mem x hy) j s) s1
      .ok (n :: ns, s2)

/-- Sequentially inspect the values of a list of key/value pairs, building the
result dict with insert-or-overwrite on the repr of each key, threading the
shared `seen` set, as the dict comprehension at source lines 212–213 does. -/
def foldPairs (l : List (PyVal × PyVal))
    (f : (p : PyVal × PyVal) → p ∈ l → List Nat → Except PyErr (Node × List Nat))
    (keyOf : PyVal → String) (acc : List (String × Node)) (seen : List Nat) :
    Except PyErr (List (String × Node) × List Nat) :=
  match l with
  | [] => .ok (acc, seen)
  | p :: rest => do
      let (n, s1) ← f p (List.mem_cons_self p rest) seen
      foldPairs rest (fun q hq s => f q (List.mem_cons_of_mem p hq) s) keyOf
        (assocUpsert acc (keyOf p.1) n) s1

/-- Sequentially inspect the attribute values of an object, filtering by
`should_include_attribute` before recursing, building the result dict with
insert-or-overwrite, as the dict comprehension at source lines 233–235 does. -/
def foldAttrs (l : List (String × PyVal)) (inc : String → Bool)
    (f : (p : String × PyVal) → p ∈ l → List Nat → Except PyErr (Node × List Nat))
    (acc : List (String × Node)) (seen : List Nat) :
    Except PyErr (List (String × Node) × List Nat) :=
  match l with
  | [] => .ok (acc, seen)
  | p :: rest =>
      if inc p.1 then do
        let (n, s1) ← f p (List.mem_cons_self p rest) seen
        foldAttrs rest inc (fun q hq s => f q (List.mem_cons_of_mem p hq) s)
          (assocUpsert acc p.1 n) s1
      else
        foldAttrs rest inc (fun q hq s => f q (List.mem_cons_of_mem p hq) s) acc seen

/-- Shallowly classify the members of a module or class, filtering by
`should_include_attribute` and building the contents dict, as the dict
comprehensions at source lines 218–224 do.  `get_type_info` on a member can
raise (uncaught `TypeError` from signature extraction), which propagates. -/
def foldMembers (l : List (String × PyVal)) (inc : String → Bool)
    (acc : List (String × TypeInfo)) : Except PyErr (List (String × TypeInfo)) :=
  match l with
  | [] => .ok acc
  | (nm, v) :: rest =>
      if inc nm then do
        let ti ← get_type_info v
        foldMembers rest inc (assocUpsert acc nm ti)
      else foldMembers rest inc acc

/-- The consultation of the renderer registry (source lines 208–209):
`if var_type in custom_renderers: result["custom_rendering"] = custom_renderers[var_type](var)`.
The renderer call is unguarded — its exceptions propagate. -/
def renderCustom (reg : Registry) (v : PyVal) : Except PyErr (Option String) :=
  match assocLookup reg (runtimeType v) with
  | none => .ok none
  | some f => do
      let r ← f v
      pure (some r)

/-- `inspect_recursive(var, name, current_depth, seen)` (source lines
190–243).  The shared mutable `seen` set of identities is modelled by
threading a `List Nat` through the whole traversal (entries are added and
never removed, as in the source); exceptions are modelled by `Except`.
Branches appear in the source's `isinstance` order; the constructors of
`PyVal` are disjoint, so the order is reflected by a `match`. -/
def inspect_recursive (cfg : Config) (reg : Registry) (S : Sampler)
    (var : PyVal) (name : String) (current_depth : Nat) (seen : List Nat) :
    Except PyErr (Node × List Nat) :=
  if var.pid ∈ seen then .ok (.circularRef name, seen)
  else
    -- seen.add(id(var)) — the one shared set, never unwound
    let seen1 := var.pid :: seen
    if current_depth > effective_depth_limit cfg var then
      .ok (.maxDepthReached name (pyTypeStr var), seen1)
    else do
      let ti ← get_type_info var
      let custom ← renderCustom reg var
      match var with
      | .vDict _ _ entries => do
          let src := itemsOf (sample_large_collection cfg.sample_size S (.dictItems entries))
          let (kids, s2) ← foldPairs src
            (fun p _ s =>
              inspect_recursive cfg reg S p.2 (name ++ "[" ++ safe_repr p.1 ++ "]")
                (current_depth + 1) s)
            (fun k => safe_repr k) [] seen1
          .ok (.mappingNode name ti custom kids, s2)
      | .vList _ _ elems => do
          let src := elemsOf (sample_large_collection cfg.sample_size S (.pyList elems))
          let (kids, s2) ← foldElems src 0
            (fun x _ i s =>
              inspect_recursive cfg reg S x (name ++ "[" ++ toString i ++ "]")
                (current_depth + 1) s)
            seen1
          .ok (.sequenceNode name ti custom kids, s2)
      | .vTuple _ _ elems => do
          let src := elemsOf (sample_large_collection cfg.sample_size S (.pyTuple elems))
          let (kids, s2) ← foldElems src 0
            (fun x _ i s =>
              inspect_recursive cfg reg S x (name ++ "[" ++ toString i ++ "]")
                (current_depth + 1) s)
            seen1
          .ok (.sequenceNode name ti custom kids, s2)
      | .vSet _ _ elems => do
          let src := elemsOf (sample_large_collection cfg.sample_size S (.pySet elems))
          let (kids, s2) ← foldElems src 0
            (fun x _ i s =>
              inspect_recursive cfg reg S x (name ++ "[" ++ toString i ++ "]")
                (current_depth + 1) s)
            seen1
          .ok (.sequenceNode name ti custom kids, s2)
      | .vModule _ _ members => do
          let contents ← foldMembers members
            (should_include_attribute cfg.include_private) []
          .ok (.moduleNode name ti custom contents, seen1)
      | .vClass _ _ _ members => do
          let contents ← foldMembers members
            (should_include_attribute cfg.include_private) []
          .ok (.classNode name ti custom contents, seen1)
      | .vFunction _ _ sig =>
          -- source line 226: str(inspect.signature(var)) with no guard —
          -- a signature-extraction failure here propagates
          match sig with
          | .sigOk s => .ok (.signatureNode name ti custom s, seen1)
          | .raisesValueError => .error .valueError
          | .raisesTypeError => .error .typeError
      | .vCoroutine _ coroName =>
          .ok (.coroutineNode name ti custom "coroutine" (coroName.getD "unnamed"), seen1)
      | .vObject _ _ _ attrs => do
          let (kids, s2) ← foldAttrs attrs
            (should_include_attribute cfg.include_private)
            (fun p _ s => inspect_recursive cfg reg S p.2 p.1 (current_depth + 1) s)
            [] seen1
          .ok (.attributesNode name ti custom kids, s2)
      | .vInt _ n => .ok (.scalarNode name ti custom (.sInt n), seen1)
      | .vBool _ b => .ok (.scalarNode name ti custom (.sBool b), seen1)
      | .vStr _ s => .ok (.scalarNode name ti custom (.sStr s), seen1)
      | .vNone _ => .ok (.scalarNode name ti custom .sNone, seen1)
      | .vDatetime _ iso => .ok (.scalarNode name ti custom (.sStr iso), seen1)
      | .vOpaque _ _ _ _ _ =>
          .ok (.scalarNode name ti custom (.sStr (safe_repr var)), seen1)
termination_by sizeOf var
decreasing_by
  · -- dict entries: the items view is returned unsampled
    rename_i hp
    unfold src at hp
    simp only [sample_large_collection, itemsOf] at hp
    have h1 := List.sizeOf_lt_of_mem hp
    obtain ⟨k, v⟩ := p
    simp at h1 ⊢
    omega
  · -- list elements, possibly sampled
    rename_i hx
    unfold src at hx
    simp only [sample_large_collection] at hx
    split at hx
    · have hx2 := S.mem_of_sample _ _ _ (by simpa [elemsOf] using hx)
      have h1 := List.sizeOf_lt_of_mem hx2
      simp
      omega
    · have h1 := List.sizeOf_lt_of_mem (by simpa [elemsOf] using hx : x ∈ elems)
      simp
      omega
  · -- tuple elements, possibly sampled
    rename_i hx
    unfold src at hx
    simp only [sample_large_collection] at hx
    split at hx
    · have hx2 := S.mem_of_sample _ _ _ (by simpa [elemsOf] using hx)
      have h1 := List.sizeOf_lt_of_mem hx2
      simp
      omega
    · have h1 := List.sizeOf_lt_of_mem (by simpa [elemsOf] using hx : x ∈ elems)
      simp
      omega
  · -- set elements, possibly sampled
    rename_i hx
    unfold src at hx
    simp only [sample_large_collection] at hx
    split at hx
    · have hx2 := S.mem_of_sample _ _ _ (by simpa [elemsOf] using hx)
      have h1 := List.sizeOf_lt_of_mem hx2
      simp
      omega
    · have h1 := List.sizeOf_lt_of_mem (by simpa [elemsOf] using hx : x ∈ elems)
      simp
      omega
  · -- object attributes
    rename_i hp
    have h1 := List.sizeOf_lt_of_mem hp
    obtain ⟨a, v⟩ := p
    simp at h1 ⊢
    omega

/-- The metadata record stamped onto a successful root result
(`get_inspection_metadata`, source lines 135–141).  It is read from the clock
and the platform, so it enters the model as a parameter of `inspect_any`. -/
structure Metadata where
  timestamp : String
  python_version : String
  platform : String

/-- What `inspect_any` hands back to the caller: either the root inspection
node with the metadata record attached to it, or the structured error object
`{"error": ..., "variable_name": ...}` built by the root failure boundary. -/
inductive InspectResult where
  | success (root : Node) (metadata : Metadata)
  | errorResult (error : String) (variable_name : String)

/-- `inspect_any(variable, variable_name, ...)` (source lines 144–267):
run the traversal inside the root failure boundary; on success attach the
metadata record, on any escaping exception log one error message and return
the `{error, variable_name}` object.  The second component of the result is
the list of messages handed to the logging collaborator (`logging.error`),
in order.  Console printing is presentation-only and not modelled. -/
def inspect_any (cfg : Config) (reg : Registry) (S : Sampler) (md : Metadata)
    (var : PyVal) (variable_name : String) : InspectResult × List String :=
  match inspect_recursive cfg reg S var variable_name 0 [] with
  | .ok (node, _) => (.success node md, [])
  | .error e =>
      let msg := "Error occurred while inspecting " ++ variable_name ++ ": " ++ errStr e
      (.errorResult msg variable_name, [msg])

/-- A concrete sampler satisfying the `random.sample` contract (used to
instantiate theorems on concrete inputs): keep the first `k` elements. -/
def takeSampler : Sampler where
  sample := fun l k => l.take k
  mem_of_sample := fun l k x hx => List.take_subset k l hx
  length_sample := fun l k hk => by
    simp [List.length_take]
    omega

/-- The values the traversal recurses into from a given value: dict values,
sequence elements, object attribute values.  (Module and class members are
classified shallowly, never recursed into.) -/
def childVals : PyVal → List PyVal
  | .vDict _ _ entries => entries.map (fun p => p.2)
  | .vList _ _ elems => elems
  | .vTuple _ _ elems => elems
  | .vSet _ _ elems => elems
  | .vObject _ _ _ attrs => attrs.map (fun p => p.2)
  | _ => []

/-- The custom-rendering overlay of a result node (`none` on the two terminal
markers, which the source returns before consulting the registry). -/
def customOf : Node → Option String
  | .circularRef _ => none
  | .maxDepthReached _ _ => none
  | .mappingNode _ _ c _ => c
  | .sequenceNode _ _ c _ => c
  | .moduleNode _ _ c _ => c
  | .classNode _ _ c _ => c
  | .signatureNode _ _ c _ => c
  | .coroutineNode _ _ c _ _ => c
  | .attributesNode _ _ c _ => c
  | .scalarNode _ _ c _ => c

/-- The kind of content a result node carries (which single content field the
result dict was given). -/
inductive ContentKind where
  | circularMarker
  | depthMarker
  | mappingContent
  | sequenceContent
  | moduleContent
  | classContent
  | signatureContent
  | coroutineContent
  | attributesContent
  | scalarContent
deriving DecidableEq

/-- The content kind of a node. -/
def contentKind : Node → ContentKind
  | .circularRef _ => .circularMarker
  | .maxDepthReached _ _ => .depthMarker
  | .mappingNode _ _ _ _ => .mappingContent
  | .sequenceNode _ _ _ _ => .sequenceContent
  | .moduleNode _ _ _ _ => .moduleContent
  | .classNode _ _ _ _ => .classContent
  | .signatureNode _ _ _ _ => .signatureContent
  | .coroutineNode _ _ _ _ _ => .coroutineContent
  | .attributesNode _ _ _ _ => .attributesContent
  | .scalarNode _ _ _ _ => .scalarContent

/-- The content kind the engine's branch on the value's shape produces for
each value shape (source lines 211–241). -/
def categoryOf : PyVal → ContentKind
  | .vDict _ _ _ => .mappingContent
  | .vList _ _ _ => .sequenceContent
  | .vTuple _ _ _ => .sequenceContent
  | .vSet _ _ _ => .sequenceContent
  | .vModule _ _ _ => .moduleContent
  | .vClass _ _ _ _ => .classContent
  | .vFunction _ _ _ => .signatureContent
  | .vCoroutine _ _ => .coroutineContent
  | .vObject _ _ _ _ => .attributesContent
  | .vInt _ _ => .scalarContent
  | .vBool _ _ => .scalarContent
  | .vStr _ _ => .scalarContent
  | .vNone _ => .scalarContent
  | .vDatetime _ _ => .scalarContent
  | .vOpaque _ _ _ _ _ => .scalarContent

/-- The member names enumerated into a node's `module_contents`,
`class_contents` or `attributes` dict (empty for every other node shape). -/
def contentKeys : Node → List String
  | .moduleNode _ _ _ contents => contents.map (fun p => p.1)
  | .classNode _ _ _ contents => contents.map (fun p => p.1)
  | .attributesNode _ _ _ attrs => attrs.map (fun p => p.1)
  | _ => []

/-- The number of key/value entries of a mapping result node. -/
def mappingCount : Node → Option Nat
  | .mappingNode _ _ _ entries => some entries.length
  | _ => none

/-- The height of a result tree: a childless node has height 0; a node with
inspected children sits one level above its highest child.  (Module/class
contents are shallow type records, not child nodes.) -/
def Node.height : Node → Nat
  | .mappingNode _ _ _ entries =>
      1 + (entries.attach.map (fun p => Node.height p.1.2)).foldr max 0
  | .sequenceNode _ _ _ elems =>
      1 + (elems.attach.map (fun p => Node.height p.1)).foldr max 0
  | .attributesNode _ _ _ attrs =>
      1 + (attrs.attach.map (fun p => Node.height p.1.2)).foldr max 0
  | _ => 0
termination_by n => sizeOf n
decreasing_by
  · obtain ⟨⟨k, v⟩, hp⟩ := p
    have h1 := List.sizeOf_lt_of_mem hp
    simp at h1 ⊢
    omega
  · obtain ⟨x, hx⟩ := p
    have h1 := List.sizeOf_lt_of_mem hx
    simp
    omega
  · obtain ⟨⟨k, v⟩, hp⟩ := p
    have h1 := List.sizeOf_lt_of_mem hp
    simp at h1 ⊢
    omega

/-- The largest effective depth limit of any value occurring in the input
(along the paths the traversal can take). -/
def maxEffLimit (cfg : Config) (v : PyVal) : Nat :=
  max (effective_depth_limit cfg v)
      (((childVals v).attach.map (fun c => maxEffLimit cfg c.1)).foldr max 0)
termination_by sizeOf v
decreasing_by
  obtain ⟨c, hc⟩ := c
  cases v with
  | vDict pid st entries =>
      simp only [childVals] at hc
      obtain ⟨p, hm, rfl⟩ := List.mem_map.mp hc
      have h1 := List.sizeOf_lt_of_mem hm
      obtain ⟨a, b⟩ := p
      simp at h1 ⊢
      omega
  | vList pid st elems =>
      simp [childVals] at hc ⊢
      have h1 := List.sizeOf_lt_of_mem hc
      omega
  | vTuple pid st elems =>
      simp [childVals] at hc ⊢
      have h1 := List.sizeOf_lt_of_mem hc
      omega
  | vSet pid st elems =>
      simp [childVals] at hc ⊢
      have h1 := List.sizeOf_lt_of_mem hc
      omega
  | vObject pid t m attrs =>
      simp only [childVals] at hc
      obtain ⟨p, hm, rfl⟩ := List.mem_map.mp hc
      have h1 := List.sizeOf_lt_of_mem hm
      obtain ⟨a, b⟩ := p
      simp at h1 ⊢
      omega
  | vNone pid => simp [childVals] at hc
  | vBool pid b => simp [childVals] at hc
  | vInt pid n => simp [childVals] at hc
  | vStr pid s => simp [childVals] at hc
  | vModule pid nm ms => simp [childVals] at hc
  | vClass pid nm sg ms => simp [childVals] at hc
  | vFunction pid nm sg => simp [childVals] at hc
  | vCoroutine pid nm => simp [childVals] at hc
  | vDatetime pid iso => simp [childVals] at hc
  | vOpaque pid t m r cs => simp [childVals] at hc

/-- Check a property of every element of a list, handing each check a
membership proof (so that a caller's recursion over child values is
well-founded). -/
def allChildren (l : List PyVal) (f : (x : PyVal) → x ∈ l → Bool) : Bool :=
  match l with
  | [] => true
  | x :: t => f x (List.mem_cons_self x t) &&
      allChildren t (fun y hy => f y (List.mem_cons_of_mem x hy))

/-- A value tree is path-acyclic when no value's identity repeats along any
root-to-descendant chain of the references the traversal follows — the
faithful notion of "no actual cycle" for an object graph. -/
def pathAcyclic (path : List Nat) (v : PyVal) : Bool :=
  !(v.pid ∈ path) &&
    allChildren (childVals v) (fun c _ => pathAcyclic (v.pid :: path) c)
termination_by sizeOf v
decreasing_by
  rename_i hc
  cases v with
  | vDict pid st entries =>
      simp only [childVals] at hc
      obtain ⟨p, hm, rfl⟩ := List.mem_map.mp hc
      have h1 := List.sizeOf_lt_of_mem hm
      obtain ⟨a, b⟩ := p
      simp at h1 ⊢
      omega
  | vList pid st elems =>
      simp [childVals] at hc ⊢
      have h1 := List.sizeOf_lt_of_mem hc
      omega
  | vTuple pid st elems =>
      simp [childVals] at hc ⊢
      have h1 := List.sizeOf_lt_of_mem hc
      omega
  | vSet pid st elems =>
      simp [childVals] at hc ⊢
      have h1 := List.sizeOf_lt_of_mem hc
      omega
  | vObject pid t m attrs =>
      simp only [childVals] at hc
      obtain ⟨p, hm, rfl⟩ := List.mem_map.mp hc
      have h1 := List.sizeOf_lt_of_mem hm
      obtain ⟨a, b⟩ := p
      simp at h1 ⊢
      omega
  | vNone pid => simp [childVals] at hc
  | vBool pid b => simp [childVals] at hc
  | vInt pid n => simp [childVals] at hc
  | vStr pid s => simp [childVals] at hc
  | vModule pid nm ms => simp [childVals] at hc
  | vClass pid nm sg ms => simp [childVals] at hc
  | vFunction pid nm sg => simp [childVals] at hc
  | vCoroutine pid nm => simp [childVals] at hc
  | vDatetime pid iso => simp [childVals] at hc
  | vOpaque pid t m r cs => simp [childVals] at hc

/-! ### Concrete fixtures used to instantiate the theorems -/

/-- A list value `[7]` with identity 2 (the shared sibling of the C1 input). -/
def c1_inner : PyVal := .vList 2 none [.vInt 3 7]

/-- `b = [a, a]`: the same list object (identity 2) reachable via two
independent sibling paths; the tree is acyclic. -/
def c1_input : PyVal := .vList 1 none [c1_inner, c1_inner]

/-- Options with `sample_size = 2` (the mapping-sampling scenario). -/
def cfg3 : Config :=
  { max_depth := defaultMaxDepth, include_private := false, sample_size := 2 }

/-- `{1: 10, 2: 20, 3: 30}`: a mapping with 3 > 2 = sample_size entries. -/
def c3_input : PyVal :=
  .vDict 1 none
    [(.vInt 10 1, .vInt 11 10), (.vInt 12 2, .vInt 13 20), (.vInt 14 3, .vInt 15 30)]

/-- Options with `max_depth = {dict: 0}`. -/
def cfg4 : Config :=
  { max_depth := [("dict", 0)], include_private := false, sample_size := 100 }

/-- An empty dict with identity 2, shared below. -/
def c4_shared : PyVal := .vDict 2 none []

/-- `r = {1: a, 2: a}` where `a` is one shared empty dict. -/
def c4_input : PyVal :=
  .vDict 1 none [(.vInt 5 1, c4_shared), (.vInt 6 2, c4_shared)]

/-- Options with `max_depth = {list: 1}`. -/
def cfg5 : Config :=
  { max_depth := [("list", 1)], include_private := false, sample_size := 100 }

/-- A list whose root type has limit 1 but which nests dicts (dynamic limit 7)
to depth 3. -/
def c5_input : PyVal :=
  .vList 1 none
    [.vDict 2 none [(.vInt 10 1, .vDict 3 none [(.vInt 11 1, .vInt 4 5)])]]

/-- A metadata record fixture. -/
def md0 : Metadata :=
  { timestamp := "2026-10-12T00:00:00", python_version := "3.12", platform := "linux" }

/-- A function value whose signature extraction raises `ValueError`. -/
def c8_input : PyVal := .vFunction 1 "f" .raisesValueError

/-- A module with a reserved member, a private member and an ordinary one. -/
def c10_input : PyVal :=
  .vModule 1 "m" [("__dict__", .vInt 2 0), ("_priv", .vInt 3 1), ("x", .vInt 4 2)]

/-- The default options but with `include_private = True`. -/
def cfg10 : Config :=
  { max_depth := defaultMaxDepth, include_private := true, sample_size := 100 }

/-- A renderer that always succeeds with a fixed string. -/
def c7_renderer : Renderer := fun _ => .ok "rendered"

/-- The registry after `register_renderer(dict, c7_renderer)` on an empty
registry. -/
def c7_reg : Registry := register_renderer [] "dict" c7_renderer

/-! ## General lemmas about the embedding -/

theorem le_foldr_max {a : Nat} {l : List Nat} (h : a ∈ l) : a ≤ l.foldr max 0 := by
  induction l with
  | nil => cases h
  | cons x t ih =>
      rcases List.mem_cons.mp h with rfl | hm
      · exact le_max_left _ _
      · exact le_trans (ih hm) (le_max_right _ _)

theorem height_mappingNode (n : String) (ti : TypeInfo) (c : Option String)
    (entries : List (String × Node)) :
    Node.height (.mappingNode n ti c entries) =
      1 + (entries.map (fun p => Node.height p.2)).foldr max 0 := by
  rw [Node.height]
  rw [List.attach_map_val entries (fun q => Node.height q.2)]

theorem height_sequenceNode (n : String) (ti : TypeInfo) (c : Option String)
    (elems : List Node) :
    Node.height (.sequenceNode n ti c elems) =
      1 + (elems.map Node.height).foldr max 0 := by
  rw [Node.height]
  simp [List.attach_map_val]

theorem height_attributesNode (n : String) (ti : TypeInfo) (c : Option String)
    (attrs : List (String × Node)) :
    Node.height (.attributesNode n ti c attrs) =
      1 + (attrs.map (fun p => Node.height p.2)).foldr max 0 := by
  rw [Node.height]
  rw [List.attach_map_val attrs (fun q => Node.height q.2)]

theorem maxEffLimit_eq (cfg : Config) (v : PyVal) :
    maxEffLimit cfg v =
      max (effective_depth_limit cfg v)
        (((childVals v).map (maxEffLimit cfg)).foldr max 0) := by
  rw [maxEffLimit]
  simp [List.attach_map_val]

theorem eff_le_maxEffLimit (cfg : Config) (v : PyVal) :
    effective_depth_limit cfg v ≤ maxEffLimit cfg v := by
  rw [maxEffLimit_eq]
  exact le_max_left _ _

theorem maxEffLimit_child_le (cfg : Config) {c v : PyVal} (h : c ∈ childVals v) :
    maxEffLimit cfg c ≤ maxEffLimit cfg v := by
  rw [maxEffLimit_eq cfg v]
  exact le_trans (le_foldr_max (List.mem_map_of_mem _ h)) (le_max_right _ _)

theorem assocLookup_upsert_self {α : Type} (l : List (String × α)) (k : String) (v : α) :
    assocLookup (assocUpsert l k v) k = some v := by
  induction l with
  | nil => simp [assocUpsert, assocLookup]
  | cons p t ih =>
      obtain ⟨k1, v1⟩ := p
      by_cases h : k1 = k
      · simp [assocUpsert, assocLookup, h]
      · simp [assocUpsert, assocLookup, h, ih]

theorem assocLookup_upsert_other {α : Type} (l : List (String × α)) (k k2 : String)
    (v : α) (h : k ≠ k2) : assocLookup (assocUpsert l k v) k2 = assocLookup l k2 := by
  induction l with
  | nil => simp [assocUpsert, assocLookup, h]
  | cons p t ih =>
      obtain ⟨k1, v1⟩ := p
      by_cases h1 : k1 = k
      · subst h1
        simp [assocUpsert, assocLookup, h]
      · simp [assocUpsert, assocLookup, h1, ih]

theorem mem_keys_assocUpsert {α : Type} {l : List (String × α)} {k k2 : String} {v : α}
    (h : k2 ∈ (assocUpsert l k v).map (fun p => p.1)) :
    k2 = k ∨ k2 ∈ l.map (fun p => p.1) := by
  induction l with
  | nil => simpa [assocUpsert] using h
  | cons p t ih =>
      obtain ⟨k1, v1⟩ := p
      by_cases h1 : k1 = k
      · rw [show assocUpsert ((k1, v1) :: t) k v = (k, v) :: t by
          simp [assocUpsert, h1]] at h
        simp only [List.map_cons, List.mem_cons] at h
        rcases h with rfl | hm
        · exact Or.inl rfl
        · exact Or.inr (by simp only [List.map_cons, List.mem_cons]; exact Or.inr hm)
      · rw [show assocUpsert ((k1, v1) :: t) k v = (k1, v1) :: assocUpsert t k v by
          simp [assocUpsert, h1]] at h
        simp only [List.map_cons, List.mem_cons] at h
        rcases h with rfl | hm
        · exact Or.inr (by simp)
        · rcases ih hm with rfl | hm2
          · exact Or.inl rfl
          · exact Or.inr (by simp only [List.map_cons, List.mem_cons]; exact Or.inr hm2)

theorem mem_values_assocUpsert {α : Type} {l : List (String × α)} {k : String} {v w : α}
    (h : w ∈ (assocUpsert l k v).map (fun p => p.2)) :
    w = v ∨ w ∈ l.map (fun p => p.2) := by
  induction l with
  | nil => simpa [assocUpsert] using h
  | cons p t ih =>
      obtain ⟨k1, v1⟩ := p
      by_cases h1 : k1 = k
      · rw [show assocUpsert ((k1, v1) :: t) k v = (k, v) :: t by
          simp [assocUpsert, h1]] at h
        simp only [List.map_cons, List.mem_cons] at h
        rcases h with rfl | hm
        · exact Or.inl rfl
        · exact Or.inr (by simp only [List.map_cons, List.mem_cons]; exact Or.inr hm)
      · rw [show assocUpsert ((k1, v1) :: t) k v = (k1, v1) :: assocUpsert t k v by
          simp [assocUpsert, h1]] at h
        simp only [List.map_cons, List.mem_cons] at h
        rcases h with rfl | hm
        · exact Or.inr (by simp)
        · rcases ih hm with rfl | hm2
          · exact Or.inl rfl
          · exact Or.inr (by simp only [List.map_cons, List.mem_cons]; exact Or.inr hm2)

theorem self_mem_keys_assocUpsert {α : Type} (l : List (String × α)) (k : String) (v : α) :
    k ∈ (assocUpsert l k v).map (fun p => p.1) := by
  induction l with
  | nil => simp [assocUpsert]
  | cons p t ih =>
      obtain ⟨k1, v1⟩ := p
      by_cases h1 : k1 = k
      · simp [assocUpsert, h1]
      · simp only [assocUpsert, if_neg h1, List.map_cons, List.mem_cons]
        exact Or.inr ih

theorem keys_assocUpsert_superset {α : Type} {l : List (String × α)} {k2 : String}
    (k : String) (v : α) (h : k2 ∈ l.map (fun p => p.1)) :
    k2 ∈ (assocUpsert l k v).map (fun p => p.1) := by
  induction l with
  | nil => simp at h
  | cons p t ih =>
      obtain ⟨k1, v1⟩ := p
      simp only [List.map_cons, List.mem_cons] at h
      by_cases h1 : k1 = k
      · rw [show assocUpsert ((k1, v1) :: t) k v = (k, v) :: t by simp [assocUpsert, h1]]
        rcases h with rfl | hm
        · simp [h1]
        · simp only [List.map_cons, List.mem_cons]
          exact Or.inr hm
      · rw [show assocUpsert ((k1, v1) :: t) k v = (k1, v1) :: assocUpsert t k v by
          simp [assocUpsert, h1]]
        simp only [List.map_cons, List.mem_cons]
        rcases h with rfl | hm
        · exact Or.inl rfl
        · exact Or.inr (ih hm)

theorem foldElems_seen_mono :
    ∀ (l : List PyVal) (i : Nat)
      (f : (x : PyVal) → x ∈ l → Nat → List Nat → Except PyErr (Node × List Nat))
      (seen : List Nat) (ns : List Node) (s2 : List Nat),
      (∀ x hx j s n s1, f x hx j s = .ok (n, s1) → s ⊆ s1) →
      foldElems l i f seen = .ok (ns, s2) → seen ⊆ s2 := by
  intro l
  induction l with
  | nil =>
      intro i f seen ns s2 hf h
      simp [foldElems] at h
      rw [← h.2]
      exact fun a ha => ha
  | cons x t ih =>
      intro i f seen ns s2 hf h
      rw [foldElems] at h
      cases hstep : f x (List.mem_cons_self x t) i seen with
      | error e => rw [hstep] at h; simp [Bind.bind, Except.bind] at h
      | ok p =>
          obtain ⟨n, s1⟩ := p
          rw [hstep] at h
          simp only [Bind.bind, Except.bind] at h
          cases hrest : foldElems t (i + 1)
              (fun y hy j s => f y (List.mem_cons_of_mem x hy) j s) s1 with
          | error e => rw [hrest] at h; simp at h
          | ok q =>
              obtain ⟨ns1, s3⟩ := q
              rw [hrest] at h
              simp only [Except.ok.injEq, Prod.mk.injEq] at h
              obtain ⟨h4, h5⟩ := h
              subst h5
              have h1 : seen ⊆ s1 := hf x (List.mem_cons_self x t) i seen n s1 hstep
              have h2 : s1 ⊆ s3 :=
                ih (i + 1) (fun y hy j s => f y (List.mem_cons_of_mem x hy) j s) s1 ns1 s3
                  (fun y hy j s n1 s4 hh => hf y (List.mem_cons_of_mem x hy) j s n1 s4 hh)
                  hrest
              exact h1.trans h2

theorem foldElems_length :
    ∀ (l : List PyVal) (i : Nat)
      (f : (x : PyVal) → x ∈ l → Nat → List Nat → Except PyErr (Node × List Nat))
      (seen : List Nat) (ns : List Node) (s2 : List Nat),
      foldElems l i f seen = .ok (ns, s2) → ns.length = l.length := by
  intro l
  induction l with
  | nil =>
      intro i f seen ns s2 h
      simp [foldElems] at h
      simp [← h.1]
  | cons x t ih =>
      intro i f seen ns s2 h
      rw [foldElems] at h
      cases hstep : f x (List.mem_cons_self x t) i seen with
      | error e => rw [hstep] at h; simp [Bind.bind, Except.bind] at h
      | ok p =>
          obtain ⟨n, s1⟩ := p
          rw [hstep] at h
          simp only [Bind.bind, Except.bind] at h
          cases hrest : foldElems t (i + 1)
              (fun y hy j s => f y (List.mem_cons_of_mem x hy) j s) s1 with
          | error e => rw [hrest] at h; simp at h
          | ok q =>
              obtain ⟨ns1, s3⟩ := q
              rw [hrest] at h
              simp only [Except.ok.injEq, Prod.mk.injEq] at h
              obtain ⟨h4, h5⟩ := h
              subst h4
              have := ih (i + 1) (fun y hy j s => f y (List.mem_cons_of_mem x hy) j s)
                s1 ns1 s3 hrest
              simp [this]

theorem foldElems_provenance :
    ∀ (l : List PyVal) (i : Nat)
      (f : (x : PyVal) → x ∈ l → Nat → List Nat → Except PyErr (Node × List Nat))
      (seen : List Nat) (ns : List Node) (s2 : List Nat),
      foldElems l i f seen = .ok (ns, s2) →
      ∀ n ∈ ns, ∃ x, ∃ hx : x ∈ l, ∃ j s s1, f x hx j s = .ok (n, s1) := by
  intro l
  induction l with
  | nil =>
      intro i f seen ns s2 h
      simp [foldElems] at h
      intro n hn
      rw [h.1] at hn
      cases hn
  | cons x t ih =>
      intro i f seen ns s2 h
      rw [foldElems] at h
      cases hstep : f x (List.mem_cons_self x t) i seen with
      | error e => rw [hstep] at h; simp [Bind.bind, Except.bind] at h
      | ok p =>
          obtain ⟨n, s1⟩ := p
          rw [hstep] at h
          simp only [Bind.bind, Except.bind] at h
          cases hrest : foldElems t (i + 1)
              (fun y hy j s => f y (List.mem_cons_of_mem x hy) j s) s1 with
          | error e => rw [hrest] at h; simp at h
          | ok q =>
              obtain ⟨ns1, s3⟩ := q
              rw [hrest] at h
              simp only [Except.ok.injEq, Prod.mk.injEq] at h
              obtain ⟨h4, h5⟩ := h
              subst h4
              intro m hm
              rcases List.mem_cons.mp hm with rfl | hm2
              · exact ⟨x, List.mem_cons_self x t, i, seen, s1, hstep⟩
              · obtain ⟨y, hy, j, s, s4, hh⟩ :=
                  ih (i + 1) (fun y hy j s => f y (List.mem_cons_of_mem x hy) j s)
                    s1 ns1 s3 hrest m hm2
                exact ⟨y, List.mem_cons_of_mem x hy, j, s, s4, hh⟩

theorem foldPairs_seen_mono :
    ∀ (l : List (PyVal × PyVal))
      (f : (p : PyVal × PyVal) → p ∈ l → List Nat → Except PyErr (Node × List Nat))
      (keyOf : PyVal → String) (acc : List (String × Node)) (seen : List Nat)
      (res : List (String × Node)) (s2 : List Nat),
      (∀ p hp s n s1, f p hp s = .ok (n, s1) → s ⊆ s1) →
      foldPairs l f keyOf acc seen = .ok (res, s2) → seen ⊆ s2 := by
  intro l
  induction l with
  | nil =>
      intro f keyOf acc seen res s2 hf h
      simp [foldPairs] at h
      rw [← h.2]
      exact fun a ha => ha
  | cons p t ih =>
      intro f keyOf acc seen res s2 hf h
      rw [foldPairs] at h
      cases hstep : f p (List.mem_cons_self p t) seen with
      | error e => rw [hstep] at h; simp [Bind.bind, Except.bind] at h
      | ok q =>
          obtain ⟨n, s1⟩ := q
          rw [hstep] at h
          simp only [Bind.bind, Except.bind] at h
          have h1 : seen ⊆ s1 := hf p (List.mem_cons_self p t) seen n s1 hstep
          have h2 : s1 ⊆ s2 :=
            ih (fun q hq s => f q (List.mem_cons_of_mem p hq) s) keyOf
              (assocUpsert acc (keyOf p.1) n) s1 res s2
              (fun q hq s n1 s4 hh => hf q (List.mem_cons_of_mem p hq) s n1 s4 hh) h
          exact h1.trans h2

theorem foldPairs_provenance :
    ∀ (l : List (PyVal × PyVal))
      (f : (p : PyVal × PyVal) → p ∈ l → List Nat → Except PyErr (Node × List Nat))
      (keyOf : PyVal → String) (acc : List (String × Node)) (seen : List Nat)
      (res : List (String × Node)) (s2 : List Nat),
      foldPairs l f keyOf acc seen = .ok (res, s2) →
      ∀ n ∈ res.map (fun pr => pr.2),
        n ∈ acc.map (fun pr => pr.2) ∨
        ∃ p, ∃ hp : p ∈ l, ∃ s s1, f p hp s = .ok (n, s1) := by
  intro l
  induction l with
  | nil =>
      intro f keyOf acc seen res s2 h
      simp [foldPairs] at h
      intro n hn
      rw [← h.1] at hn
      exact Or.inl hn
  | cons p t ih =>
      intro f keyOf acc seen res s2 h
      rw [foldPairs] at h
      cases hstep : f p (List.mem_cons_self p t) seen with
      | error e => rw [hstep] at h; simp [Bind.bind, Except.bind] at h
      | ok q =>
          obtain ⟨n, s1⟩ := q
          rw [hstep] at h
          simp only [Bind.bind, Except.bind] at h
          intro m hm
          rcases ih (fun q hq s => f q (List.mem_cons_of_mem p hq) s) keyOf
              (assocUpsert acc (keyOf p.1) n) s1 res s2 h m hm with hin | hnew
          · rcases mem_values_assocUpsert hin with rfl | hacc
            · exact Or.inr ⟨p, List.mem_cons_self p t, seen, s1, hstep⟩
            · exact Or.inl hacc
          · obtain ⟨q, hq, s, s4, hh⟩ := hnew
            exact Or.inr ⟨q, List.mem_cons_of_mem p hq, s, s4, hh⟩

theorem foldAttrs_seen_mono :
    ∀ (l : List (String × PyVal)) (inc : String → Bool)
      (f : (p : String × PyVal) → p ∈ l → List Nat → Except PyErr (Node × List Nat))
      (acc : List (String × Node)) (seen : List Nat)
      (res : List (String × Node)) (s2 : List Nat),
      (∀ p hp s n s1, f p hp s = .ok (n, s1) → s ⊆ s1) →
      foldAttrs l inc f acc seen = .ok (res, s2) → seen ⊆ s2 := by
  intro l
  induction l with
  | nil =>
      intro inc f acc seen res s2 hf h
      simp [foldAttrs] at h
      rw [← h.2]
      exact fun a ha => ha
  | cons p t ih =>
      intro inc f acc seen res s2 hf h
      rw [foldAttrs] at h
      by_cases hinc : inc p.1
      · rw [if_pos hinc] at h
        cases hstep : f p (List.mem_cons_self p t) seen with
        | error e => rw [hstep] at h; simp [Bind.bind, Except.bind] at h
        | ok q =>
            obtain ⟨n, s1⟩ := q
            rw [hstep] at h
            simp only [Bind.bind, Except.bind] at h
            have h1 : seen ⊆ s1 := hf p (List.mem_cons_self p t) seen n s1 hstep
            have h2 : s1 ⊆ s2 :=
              ih inc (fun q hq s => f q (List.mem_cons_of_mem p hq) s)
                (assocUpsert acc p.1 n) s1 res s2
                (fun q hq s n1 s4 hh => hf q (List.mem_cons_of_mem p hq) s n1 s4 hh) h
            exact h1.trans h2
      · rw [if_neg hinc] at h
        exact ih inc (fun q hq s => f q (List.mem_cons_of_mem p hq) s) acc seen res s2
          (fun q hq s n1 s4 hh => hf q (List.mem_cons_of_mem p hq) s n1 s4 hh) h

theorem foldAttrs_provenance :
    ∀ (l : List (String × PyVal)) (inc : String → Bool)
      (f : (p : String × PyVal) → p ∈ l → List Nat → Except PyErr (Node × List Nat))
      (acc : List (String × Node)) (seen : List Nat)
      (res : List (String × Node)) (s2 : List Nat),
      foldAttrs l inc f acc seen = .ok (res, s2) →
      ∀ n ∈ res.map (fun pr => pr.2),
        n ∈ acc.map (fun pr => pr.2) ∨
        ∃ p, ∃ hp : p ∈ l, ∃ s s1, f p hp s = .ok (n, s1) := by
  intro l
  induction l with
  | nil =>
      intro inc f acc seen res s2 h
      simp [foldAttrs] at h
      intro n hn
      rw [← h.1] at hn
      exact Or.inl hn
  | cons p t ih =>
      intro inc f acc seen res s2 h
      rw [foldAttrs] at h
      by_cases hinc : inc p.1
      · rw [if_pos hinc] at h
        cases hstep : f p (List.mem_cons_self p t) seen with
        | error e => rw [hstep] at h; simp [Bind.bind, Except.bind] at h
        | ok q =>
            obtain ⟨n, s1⟩ := q
            rw [hstep] at h
            simp only [Bind.bind, Except.bind] at h
            intro m hm
            rcases ih inc (fun q hq s => f q (List.mem_cons_of_mem p hq) s)
                (assocUpsert acc p.1 n) s1 res s2 h m hm with hin | hnew
            · rcases mem_values_assocUpsert hin with rfl | hacc
              · exact Or.inr ⟨p, List.mem_cons_self p t, seen, s1, hstep⟩
              · exact Or.inl hacc
            · obtain ⟨q, hq, s, s4, hh⟩ := hnew
              exact Or.inr ⟨q, List.mem_cons_of_mem p hq, s, s4, hh⟩
      · rw [if_neg hinc] at h
        intro m hm
        rcases ih inc (fun q hq s => f q (List.mem_cons_of_mem p hq) s) acc seen res s2
            h m hm with hin | hnew
        · exact Or.inl hin
        · obtain ⟨q, hq, s, s4, hh⟩ := hnew
          exact Or.inr ⟨q, List.mem_cons_of_mem p hq, s, s4, hh⟩

theorem foldAttrs_keys :
    ∀ (l : List (String × PyVal)) (inc : String → Bool)
      (f : (p : String × PyVal) → p ∈ l → List Nat → Except PyErr (Node × List Nat))
      (acc : List (String × Node)) (seen : List Nat)
      (res : List (String × Node)) (s2 : List Nat),
      foldAttrs l inc f acc seen = .ok (res, s2) →
      ∀ k ∈ res.map (fun pr => pr.1),
        k ∈ acc.map (fun pr => pr.1) ∨ inc k = true := by
  intro l
  induction l with
  | nil =>
      intro inc f acc seen res s2 h
      simp [foldAttrs] at h
      intro k hk
      rw [← h.1] at hk
      exact Or.inl hk
  | cons p t ih =>
      intro inc f acc seen res s2 h
      rw [foldAttrs] at h
      by_cases hinc : inc p.1
      · rw [if_pos hinc] at h
        cases hstep : f p (List.mem_cons_self p t) seen with
        | error e => rw [hstep] at h; simp [Bind.bind, Except.bind] at h
        | ok q =>
            obtain ⟨n, s1⟩ := q
            rw [hstep] at h
            simp only [Bind.bind, Except.bind] at h
            intro k hk
            rcases ih inc (fun q hq s => f q (List.mem_cons_of_mem p hq) s)
                (assocUpsert acc p.1 n) s1 res s2 h k hk with hin | hI
            · rcases mem_keys_assocUpsert hin with rfl | hacc
              · exact Or.inr hinc
              · exact Or.inl hacc
            · exact Or.inr hI
      · rw [if_neg hinc] at h
        exact ih inc (fun q hq s => f q (List.mem_cons_of_mem p hq) s) acc seen res s2 h

theorem foldMembers_keys :
    ∀ (l : List (String × PyVal)) (inc : String → Bool)
      (acc : List (String × TypeInfo)) (res : List (String × TypeInfo)),
      foldMembers l inc acc = .ok res →
      ∀ k ∈ res.map (fun pr => pr.1),
        k ∈ acc.map (fun pr => pr.1) ∨ inc k = true := by
  intro l
  induction l with
  | nil =>
      intro inc acc res h
      simp [foldMembers] at h
      intro k hk
      rw [← h] at hk
      exact Or.inl hk
  | cons p t ih =>
      intro inc acc res h
      obtain ⟨nm, v⟩ := p
      rw [foldMembers] at h
      by_cases hinc : inc nm
      · rw [if_pos hinc] at h
        cases hti : get_type_info v with
        | error e => rw [hti] at h; simp [Bind.bind, Except.bind] at h
        | ok ti =>
            rw [hti] at h
            simp only [Bind.bind, Except.bind] at h
            intro k hk
            rcases ih inc (assocUpsert acc nm ti) res h k hk with hin | hI
            · rcases mem_keys_assocUpsert hin with rfl | hacc
              · exact Or.inr hinc
              · exact Or.inl hacc
            · exact Or.inr hI
      · rw [if_neg hinc] at h
        exact ih inc acc res h

theorem foldMembers_keys_complete :
    ∀ (l : List (String × PyVal)) (inc : String → Bool)
      (acc : List (String × TypeInfo)) (res : List (String × TypeInfo)),
      foldMembers l inc acc = .ok res →
      ∀ p ∈ l, inc p.1 = true → p.1 ∈ res.map (fun pr => pr.1) := by
  intro l
  have keysgrow : ∀ (t : List (String × PyVal)) (inc : String → Bool)
      (acc : List (String × TypeInfo)) (res : List (String × TypeInfo)),
      foldMembers t inc acc = .ok res →
      ∀ k ∈ acc.map (fun pr => pr.1), k ∈ res.map (fun pr => pr.1) := by
    intro t
    induction t with
    | nil =>
        intro inc acc res h k hk
        simp [foldMembers] at h
        rw [← h]
        exact hk
    | cons p tl ih =>
        intro inc acc res h k hk
        obtain ⟨nm, v⟩ := p
        rw [foldMembers] at h
        by_cases hinc : inc nm
        · rw [if_pos hinc] at h
          cases hti : get_type_info v with
          | error e => rw [hti] at h; simp [Bind.bind, Except.bind] at h
          | ok ti =>
              rw [hti] at h
              simp only [Bind.bind, Except.bind] at h
              exact ih inc (assocUpsert acc nm ti) res h k (keys_assocUpsert_superset nm ti hk)
        · rw [if_neg hinc] at h
          exact ih inc acc res h k hk
  induction l with
  | nil =>
      intro inc acc res h p hp
      cases hp
  | cons q t ih =>
      intro inc acc res h p hp hpinc
      obtain ⟨nm, v⟩ := q
      rw [foldMembers] at h
      rcases List.mem_cons.mp hp with hpe | hm
      · subst hpe
        rw [if_pos hpinc] at h
        cases hti : get_type_info v with
        | error e => rw [hti] at h; simp [Bind.bind, Except.bind] at h
        | ok ti =>
            rw [hti] at h
            simp only [Bind.bind, Except.bind] at h
            exact keysgrow t inc (assocUpsert acc nm ti) res h nm
              (self_mem_keys_assocUpsert acc nm ti)
      · by_cases hinc : inc nm
        · rw [if_pos hinc] at h
          cases hti : get_type_info v with
          | error e => rw [hti] at h; simp [Bind.bind, Except.bind] at h
          | ok ti =>
              rw [hti] at h
              simp only [Bind.bind, Except.bind] at h
              exact ih inc (assocUpsert acc nm ti) res h p hm hpinc
        · rw [if_neg hinc] at h
          exact ih inc acc res h p hm hpinc

/-- Step lemma: a value whose identity is already in the shared seen set
becomes a circular-reference marker, and the seen set is returned as is. -/
theorem inspect_recursive_mem_seen (cfg : Config) (reg : Registry) (S : Sampler)
    (v : PyVal) (name : String) (d : Nat) (seen : List Nat) (h : v.pid ∈ seen) :
    inspect_recursive cfg reg S v name d seen = .ok (.circularRef name, seen) := by
  rw [inspect_recursive]
  simp [h]

/-- Step lemma: a not-yet-seen value whose depth exceeds its effective limit
becomes a max-depth marker carrying `str(type(var))`; its identity is still
added to the seen set, and there is no recursion. -/
theorem inspect_recursive_depth_exceeded (cfg : Config) (reg : Registry) (S : Sampler)
    (v : PyVal) (name : String) (d : Nat) (seen : List Nat)
    (h1 : v.pid ∉ seen) (h2 : effective_depth_limit cfg v < d) :
    inspect_recursive cfg reg S v name d seen =
      .ok (.maxDepthReached name (pyTypeStr v), v.pid :: seen) := by
  rw [inspect_recursive]
  simp [h1, h2]

/-- Inversion for a successful `Except` bind: the first computation succeeded
and the continuation succeeded on its value. -/
theorem bind_ok_inv {e1 : Type} {a1 b1 : Type} {e : Except e1 a1} {g : a1 → Except e1 b1}
    {b : b1} (h : e >>= g = .ok b) : ∃ a, e = .ok a ∧ g a = .ok b := by
  cases e with
  | error err => simp [Bind.bind, Except.bind] at h
  | ok a => exact ⟨a, rfl, by simpa [Bind.bind, Except.bind] using h⟩

/-- The shared seen set only ever grows: every identity in the set passed to
a call is still in the set the call returns — nothing is unwound when a
subtree's recursion returns.  (`N` is strong-induction fuel over the size of
the value.) -/
theorem inspect_seen_mono_aux (cfg : Config) (reg : Registry) (S : Sampler) :
    ∀ (N : Nat) (v : PyVal), sizeOf v < N → ∀ name d seen n s2,
      inspect_recursive cfg reg S v name d seen = .ok (n, s2) → seen ⊆ s2 := by
  intro N
  induction N with
  | zero => intro v hv; omega
  | succ N ih =>
      intro v hv name d seen n s2 hok
      rw [inspect_recursive] at hok
      by_cases h1 : v.pid ∈ seen
      · rw [if_pos h1] at hok
        simp only [Except.ok.injEq, Prod.mk.injEq] at hok
        rw [← hok.2]
        exact fun a ha => ha
      · rw [if_neg h1] at hok
        by_cases h2 : d > effective_depth_limit cfg v
        · simp only [if_pos h2, Except.ok.injEq, Prod.mk.injEq] at hok
          rw [← hok.2]
          exact fun a ha => List.mem_cons_of_mem _ ha
        · simp only [if_neg h2] at hok
          obtain ⟨ti, hti, hok⟩ := bind_ok_inv hok
          obtain ⟨custom, hc, hok⟩ := bind_ok_inv hok
          have hcons : seen ⊆ v.pid :: seen := fun a ha => List.mem_cons_of_mem _ ha
          cases v with
          | vDict pid st entries =>
              obtain ⟨⟨kids, s3⟩, hfold, hok⟩ := bind_ok_inv hok
              simp only [Except.ok.injEq, Prod.mk.injEq] at hok
              rw [← hok.2]
              refine hcons.trans (foldPairs_seen_mono _ _ _ _ _ _ _ ?_ hfold)
              intro p hp s m s1 hh
              simp only [sample_large_collection, itemsOf] at hp
              refine ih p.2 ?_ _ _ _ _ _ hh
              have hsz := List.sizeOf_lt_of_mem hp
              obtain ⟨a, b⟩ := p
              simp at hsz hv ⊢
              omega
          | vList pid st elems =>
              obtain ⟨⟨kids, s3⟩, hfold, hok⟩ := bind_ok_inv hok
              simp only [Except.ok.injEq, Prod.mk.injEq] at hok
              rw [← hok.2]
              refine hcons.trans (foldElems_seen_mono _ _ _ _ _ _ ?_ hfold)
              intro x hx j s m s1 hh
              refine ih x ?_ _ _ _ _ _ hh
              simp only [sample_large_collection] at hx
              have hxe : x ∈ elems := by
                split at hx
                · exact S.mem_of_sample _ _ _ (by simpa [elemsOf] using hx)
                · simpa [elemsOf] using hx
              have hsz := List.sizeOf_lt_of_mem hxe
              simp at hv
              omega
          | vTuple pid st elems =>
              obtain ⟨⟨kids, s3⟩, hfold, hok⟩ := bind_ok_inv hok
              simp only [Except.ok.injEq, Prod.mk.injEq] at hok
              rw [← hok.2]
              refine hcons.trans (foldElems_seen_mono _ _ _ _ _ _ ?_ hfold)
              intro x hx j s m s1 hh
              refine ih x ?_ _ _ _ _ _ hh
              simp only [sample_large_collection] at hx
              have hxe : x ∈ elems := by
                split at hx
                · exact S.mem_of_sample _ _ _ (by simpa [elemsOf] using hx)
                · simpa [elemsOf] using hx
              have hsz := List.sizeOf_lt_of_mem hxe
              simp at hv
              omega
          | vSet pid st elems =>
              obtain ⟨⟨kids, s3⟩, hfold, hok⟩ := bind_ok_inv hok
              simp only [Except.ok.injEq, Prod.mk.injEq] at hok
              rw [← hok.2]
              refine hcons.trans (foldElems_seen_mono _ _ _ _ _ _ ?_ hfold)
              intro x hx j s m s1 hh
              refine ih x ?_ _ _ _ _ _ hh
              simp only [sample_large_collection] at hx
              have hxe : x ∈ elems := by
                split at hx
                · exact S.mem_of_sample _ _ _ (by simpa [elemsOf] using hx)
                · simpa [elemsOf] using hx
              have hsz := List.sizeOf_lt_of_mem hxe
              simp at hv
              omega
          | vObject pid tn tm attrs =>
              obtain ⟨⟨kids, s3⟩, hfold, hok⟩ := bind_ok_inv hok
              simp only [Except.ok.injEq, Prod.mk.injEq] at hok
              rw [← hok.2]
              refine hcons.trans (foldAttrs_seen_mono _ _ _ _ _ _ _ ?_ hfold)
              intro p hp s m s1 hh
              refine ih p.2 ?_ _ _ _ _ _ hh
              have hsz := List.sizeOf_lt_of_mem hp
              obtain ⟨a, b⟩ := p
              simp at hsz hv ⊢
              omega
          | vModule pid nm members =>
              obtain ⟨contents, hm, hok⟩ := bind_ok_inv hok
              simp only [Except.ok.injEq, Prod.mk.injEq] at hok
              rw [← hok.2]
              exact hcons
          | vClass pid nm sg members =>
              obtain ⟨contents, hm, hok⟩ := bind_ok_inv hok
              simp only [Except.ok.injEq, Prod.mk.injEq] at hok
              rw [← hok.2]
              exact hcons
          | vFunction pid nm sg =>
              cases sg with
              | sigOk s =>
                  simp only [Except.ok.injEq, Prod.mk.injEq] at hok
                  rw [← hok.2]
                  exact hcons
              | raisesValueError => simp at hok
              | raisesTypeError => simp at hok
          | vCoroutine pid nm =>
              simp only [Except.ok.injEq, Prod.mk.injEq] at hok
              rw [← hok.2]
              exact hcons
          | vInt pid m =>
              simp only [Except.ok.injEq, Prod.mk.injEq] at hok
              rw [← hok.2]
              exact hcons
          | vBool pid b =>
              simp only [Except.ok.injEq, Prod.mk.injEq] at hok
              rw [← hok.2]
              exact hcons
          | vStr pid str =>
              simp only [Except.ok.injEq, Prod.mk.injEq] at hok
              rw [← hok.2]
              exact hcons
          | vNone pid =>
              simp only [Except.ok.injEq, Prod.mk.injEq] at hok
              rw [← hok.2]
              exact hcons
          | vDatetime pid iso =>
              simp only [Except.ok.injEq, Prod.mk.injEq] at hok
              rw [← hok.2]
              exact hcons
          | vOpaque pid tn tm r cs =>
              simp only [Except.ok.injEq, Prod.mk.injEq] at hok
              rw [← hok.2]
              exact hcons

/-- The shared seen set only ever grows across a call (wrapper of the fuel
version). -/
theorem inspect_seen_mono (cfg : Config) (reg : Registry) (S : Sampler)
    (v : PyVal) (name : String) (d : Nat) (seen : List Nat) (n : Node) (s2 : List Nat)
    (hok : inspect_recursive cfg reg S v name d seen = .ok (n, s2)) : seen ⊆ s2 :=
  inspect_seen_mono_aux cfg reg S (sizeOf v + 1) v (Nat.lt_succ_self _) name d seen n s2 hok

theorem foldr_max_le {l : List Nat} {b : Nat} (h : ∀ a ∈ l, a ≤ b) :
    l.foldr max 0 ≤ b := by
  induction l with
  | nil => simp
  | cons x t ih =>
      simp only [List.foldr_cons, max_le_iff]
      exact ⟨h x (List.mem_cons_self x t), ih fun a ha => h a (List.mem_cons_of_mem x ha)⟩

/-- Shape of a successfully inspected node that is neither already seen nor
beyond its depth limit: classification and renderer consultation succeeded,
the node's single content field is the one selected by the value's shape, the
custom-rendering overlay is exactly the renderer consultation's result, and
every member name enumerated into its contents passed the
`should_include_attribute` filter. -/
theorem inspect_ok_node_shape (cfg : Config) (reg : Registry) (S : Sampler)
    (v : PyVal) (name : String) (d : Nat) (seen : List Nat) (n : Node) (s2 : List Nat)
    (h1 : v.pid ∉ seen) (h2 : ¬ d > effective_depth_limit cfg v)
    (hok : inspect_recursive cfg reg S v name d seen = .ok (n, s2)) :
    ∃ ti custom, get_type_info v = .ok ti ∧ renderCustom reg v = .ok custom ∧
      contentKind n = categoryOf v ∧ customOf n = custom ∧
      ∀ k ∈ contentKeys n, should_include_attribute cfg.include_private k = true := by
  rw [inspect_recursive] at hok
  rw [if_neg h1] at hok
  simp only [if_neg h2] at hok
  obtain ⟨ti, hti, hok⟩ := bind_ok_inv hok
  obtain ⟨custom, hc, hok⟩ := bind_ok_inv hok
  refine ⟨ti, custom, hti, hc, ?_⟩
  cases v with
  | vDict pid st entries =>
      obtain ⟨⟨kids, s3⟩, hfold, hok⟩ := bind_ok_inv hok
      simp only [Except.ok.injEq, Prod.mk.injEq] at hok
      rw [← hok.1]
      exact ⟨rfl, rfl, by simp [contentKeys]⟩
  | vList pid st elems =>
      obtain ⟨⟨kids, s3⟩, hfold, hok⟩ := bind_ok_inv hok
      simp only [Except.ok.injEq, Prod.mk.injEq] at hok
      rw [← hok.1]
      exact ⟨rfl, rfl, by simp [contentKeys]⟩
  | vTuple pid st elems =>
      obtain ⟨⟨kids, s3⟩, hfold, hok⟩ := bind_ok_inv hok
      simp only [Except.ok.injEq, Prod.mk.injEq] at hok
      rw [← hok.1]
      exact ⟨rfl, rfl, by simp [contentKeys]⟩
  | vSet pid st elems =>
      obtain ⟨⟨kids, s3⟩, hfold, hok⟩ := bind_ok_inv hok
      simp only [Except.ok.injEq, Prod.mk.injEq] at hok
      rw [← hok.1]
      exact ⟨rfl, rfl, by simp [contentKeys]⟩
  | vObject pid tn tm attrs =>
      obtain ⟨⟨kids, s3⟩, hfold, hok⟩ := bind_ok_inv hok
      simp only [Except.ok.injEq, Prod.mk.injEq] at hok
      rw [← hok.1]
      refine ⟨rfl, rfl, ?_⟩
      intro k hk
      simp only [contentKeys] at hk
      rcases foldAttrs_keys attrs _ _ [] _ kids s3 hfold k hk with habs | hI
      · simp at habs
      · exact hI
  | vModule pid nm members =>
      obtain ⟨contents, hm, hok⟩ := bind_ok_inv hok
      simp only [Except.ok.injEq, Prod.mk.injEq] at hok
      rw [← hok.1]
      refine ⟨rfl, rfl, ?_⟩
      intro k hk
      simp only [contentKeys] at hk
      rcases foldMembers_keys members _ [] contents hm k hk with habs | hI
      · simp at habs
      · exact hI
  | vClass pid nm sg members =>
      obtain ⟨contents, hm, hok⟩ := bind_ok_inv hok
      simp only [Except.ok.injEq, Prod.mk.injEq] at hok
      rw [← hok.1]
      refine ⟨rfl, rfl, ?_⟩
      intro k hk
      simp only [contentKeys] at hk
      rcases foldMembers_keys members _ [] contents hm k hk with habs | hI
      · simp at habs
      · exact hI
  | vFunction pid nm sg =>
      cases sg with
      | sigOk s =>
          simp only [Except.ok.injEq, Prod.mk.injEq] at hok
          rw [← hok.1]
          exact ⟨rfl, rfl, by simp [contentKeys]⟩
      | raisesValueError => simp at hok
      | raisesTypeError => simp at hok
  | vCoroutine pid nm =>
      simp only [Except.ok.injEq, Prod.mk.injEq] at hok
      rw [← hok.1]
      exact ⟨rfl, rfl, by simp [contentKeys]⟩
  | vInt pid m =>
      simp only [Except.ok.injEq, Prod.mk.injEq] at hok
      rw [← hok.1]
      exact ⟨rfl, rfl, by simp [contentKeys]⟩
  | vBool pid b =>
      simp only [Except.ok.injEq, Prod.mk.injEq] at hok
      rw [← hok.1]
      exact ⟨rfl, rfl, by simp [contentKeys]⟩
  | vStr pid str =>
      simp only [Except.ok.injEq, Prod.mk.injEq] at hok
      rw [← hok.1]
      exact ⟨rfl, rfl, by simp [contentKeys]⟩
  | vNone pid =>
      simp only [Except.ok.injEq, Prod.mk.injEq] at hok
      rw [← hok.1]
      exact ⟨rfl, rfl, by simp [contentKeys]⟩
  | vDatetime pid iso =>
      simp only [Except.ok.injEq, Prod.mk.injEq] at hok
      rw [← hok.1]
      exact ⟨rfl, rfl, by simp [contentKeys]⟩
  | vOpaque pid tn tm r cs =>
      simp only [Except.ok.injEq, Prod.mk.injEq] at hok
      rw [← hok.1]
      exact ⟨rfl, rfl, by simp [contentKeys]⟩

/-- No value shape is classified as a circular marker by the branch on the
value's category. -/
theorem categoryOf_ne_circular (v : PyVal) : categoryOf v ≠ .circularMarker := by
  cases v <;> simp [categoryOf]

/-- Depth bound, fuel version: a successfully built subtree rooted at depth
`d` never reaches below `max (maxEffLimit + 1) d` (each expanded node's depth
stays within its own value's effective limit; a marker may sit one level
below the last expanded node). -/
theorem inspect_height_aux (cfg : Config) (reg : Registry) (S : Sampler) :
    ∀ (N : Nat) (v : PyVal), sizeOf v < N → ∀ name d seen n s2,
      inspect_recursive cfg reg S v name d seen = .ok (n, s2) →
      Node.height n + d ≤ max (maxEffLimit cfg v + 1) d := by
  intro N
  induction N with
  | zero => intro v hv; omega
  | succ N ih =>
      intro v hv name d seen n s2 hok
      rw [inspect_recursive] at hok
      by_cases h1 : v.pid ∈ seen
      · rw [if_pos h1] at hok
        simp only [Except.ok.injEq, Prod.mk.injEq] at hok
        rw [← hok.1]
        have : Node.height (.circularRef name) = 0 := by simp [Node.height]
        rw [this]
        simp
      · rw [if_neg h1] at hok
        by_cases h2 : d > effective_depth_limit cfg v
        · simp only [if_pos h2, Except.ok.injEq, Prod.mk.injEq] at hok
          rw [← hok.1]
          have : Node.height (.maxDepthReached name (pyTypeStr v)) = 0 := by simp [Node.height]
          rw [this]
          simp
        · simp only [if_neg h2] at hok
          have hde : d ≤ maxEffLimit cfg v :=
            le_trans (by omega) (eff_le_maxEffLimit cfg v)
          obtain ⟨ti, hti, hok⟩ := bind_ok_inv hok
          obtain ⟨custom, hc, hok⟩ := bind_ok_inv hok
          cases v with
          | vDict pid st entries =>
              obtain ⟨⟨kids, s3⟩, hfold, hok⟩ := bind_ok_inv hok
              simp only [Except.ok.injEq, Prod.mk.injEq] at hok
              rw [← hok.1, height_mappingNode]
              have hkids : ∀ m ∈ kids.map (fun pr => pr.2.height),
                  m ≤ maxEffLimit cfg (.vDict pid st entries) - d := by
                intro m hm
                obtain ⟨pr, hpr, rfl⟩ := List.mem_map.mp hm
                have hprov := foldPairs_provenance _ _ _ _ _ _ _ hfold pr.2
                  (List.mem_map_of_mem _ hpr)
                rcases hprov with habs | ⟨p, hp, s, s1, hh⟩
                · simp at habs
                · simp only [sample_large_collection, itemsOf] at hp
                  have hszp : sizeOf p.2 < N := by
                    have hsz := List.sizeOf_lt_of_mem hp
                    obtain ⟨a, b⟩ := p
                    simp at hsz hv ⊢
                    omega
                  have hchild : maxEffLimit cfg p.2 ≤
                      maxEffLimit cfg (.vDict pid st entries) :=
                    maxEffLimit_child_le cfg
                      (by simp [childVals]; exact ⟨p.1, by simpa using hp⟩)
                  have hb := ih p.2 hszp _ _ _ _ _ hh
                  have hd1 : d + 1 ≤ maxEffLimit cfg (.vDict pid st entries) + 1 := by
                    omega
                  omega
              have hfmax := foldr_max_le hkids
              omega
          | vList pid st elems =>
              obtain ⟨⟨kids, s3⟩, hfold, hok⟩ := bind_ok_inv hok
              simp only [Except.ok.injEq, Prod.mk.injEq] at hok
              rw [← hok.1, height_sequenceNode]
              have hkids : ∀ m ∈ kids.map Node.height,
                  m ≤ maxEffLimit cfg (.vList pid st elems) - d := by
                intro m hm
                obtain ⟨nd, hnd, rfl⟩ := List.mem_map.mp hm
                obtain ⟨x, hx, j, s, s1, hh⟩ :=
                  foldElems_provenance _ _ _ _ _ _ hfold nd hnd
                simp only [sample_large_collection] at hx
                have hxe : x ∈ elems := by
                  split at hx
                  · exact S.mem_of_sample _ _ _ (by simpa [elemsOf] using hx)
                  · simpa [elemsOf] using hx
                have hszx : sizeOf x < N := by
                  have hsz := List.sizeOf_lt_of_mem hxe
                  simp at hv
                  omega
                have hchild : maxEffLimit cfg x ≤ maxEffLimit cfg (.vList pid st elems) :=
                  maxEffLimit_child_le cfg (by simpa [childVals] using hxe)
                have hb := ih x hszx _ _ _ _ _ hh
                omega
              have hfmax := foldr_max_le hkids
              omega
          | vTuple pid st elems =>
              obtain ⟨⟨kids, s3⟩, hfold, hok⟩ := bind_ok_inv hok
              simp only [Except.ok.injEq, Prod.mk.injEq] at hok
              rw [← hok.1, height_sequenceNode]
              have hkids : ∀ m ∈ kids.map Node.height,
                  m ≤ maxEffLimit cfg (.vTuple pid st elems) - d := by
                intro m hm
                obtain ⟨nd, hnd, rfl⟩ := List.mem_map.mp hm
                obtain ⟨x, hx, j, s, s1, hh⟩ :=
                  foldElems_provenance _ _ _ _ _ _ hfold nd hnd
                simp only [sample_large_collection] at hx
                have hxe : x ∈ elems := by
                  split at hx
                  · exact S.mem_of_sample _ _ _ (by simpa [elemsOf] using hx)
                  · simpa [elemsOf] using hx
                have hszx : sizeOf x < N := by
                  have hsz := List.sizeOf_lt_of_mem hxe
                  simp at hv
                  omega
                have hchild : maxEffLimit cfg x ≤ maxEffLimit cfg (.vTuple pid st elems) :=
                  maxEffLimit_child_le cfg (by simpa [childVals] using hxe)
                have hb := ih x hszx _ _ _ _ _ hh
                omega
              have hfmax := foldr_max_le hkids
              omega
          | vSet pid st elems =>
              obtain ⟨⟨kids, s3⟩, hfold, hok⟩ := bind_ok_inv hok
              simp only [Except.ok.injEq, Prod.mk.injEq] at hok
              rw [← hok.1, height_sequenceNode]
              have hkids : ∀ m ∈ kids.map Node.height,
                  m ≤ maxEffLimit cfg (.vSet pid st elems) - d := by
                intro m hm
                obtain ⟨nd, hnd, rfl⟩ := List.mem_map.mp hm
                obtain ⟨x, hx, j, s, s1, hh⟩ :=
                  foldElems_provenance _ _ _ _ _ _ hfold nd hnd
                simp only [sample_large_collection] at hx
                have hxe : x ∈ elems := by
                  split at hx
                  · exact S.mem_of_sample _ _ _ (by simpa [elemsOf] using hx)
                  · simpa [elemsOf] using hx
                have hszx : sizeOf x < N := by
                  have hsz := List.sizeOf_lt_of_mem hxe
                  simp at hv
                  omega
                have hchild : maxEffLimit cfg x ≤ maxEffLimit cfg (.vSet pid st elems) :=
                  maxEffLimit_child_le cfg (by simpa [childVals] using hxe)
                have hb := ih x hszx _ _ _ _ _ hh
                omega
              have hfmax := foldr_max_le hkids
              omega
          | vObject pid tn tm attrs =>
              obtain ⟨⟨kids, s3⟩, hfold, hok⟩ := bind_ok_inv hok
              simp only [Except.ok.injEq, Prod.mk.injEq] at hok
              rw [← hok.1, height_attributesNode]
              have hkids : ∀ m ∈ kids.map (fun pr => pr.2.height),
                  m ≤ maxEffLimit cfg (.vObject pid tn tm attrs) - d := by
                intro m hm
                obtain ⟨pr, hpr, rfl⟩ := List.mem_map.mp hm
                have hprov := foldAttrs_provenance _ _ _ _ _ _ _ hfold pr.2
                  (List.mem_map_of_mem _ hpr)
                rcases hprov with habs | ⟨p, hp, s, s1, hh⟩
                · simp at habs
                · have hszp : sizeOf p.2 < N := by
                    have hsz := List.sizeOf_lt_of_mem hp
                    obtain ⟨a, b⟩ := p
                    simp at hsz hv ⊢
                    omega
                  have hchild : maxEffLimit cfg p.2 ≤
                      maxEffLimit cfg (.vObject pid tn tm attrs) :=
                    maxEffLimit_child_le cfg
                      (by simp [childVals]; exact ⟨p.1, by simpa using hp⟩)
                  have hb := ih p.2 hszp _ _ _ _ _ hh
                  omega
              have hfmax := foldr_max_le hkids
              omega
          | vModule pid nm members =>
              obtain ⟨contents, hm, hok⟩ := bind_ok_inv hok
              simp only [Except.ok.injEq, Prod.mk.injEq] at hok
              rw [← hok.1]
              have : Node.height (.moduleNode name ti custom contents) = 0 := by
                simp [Node.height]
              rw [this]
              simp
          | vClass pid nm sg members =>
              obtain ⟨contents, hm, hok⟩ := bind_ok_inv hok
              simp only [Except.ok.injEq, Prod.mk.injEq] at hok
              rw [← hok.1]
              have : Node.height (.classNode name ti custom contents) = 0 := by
                simp [Node.height]
              rw [this]
              simp
          | vFunction pid nm sg =>
              cases sg with
              | sigOk s =>
                  simp only [Except.ok.injEq, Prod.mk.injEq] at hok
                  rw [← hok.1]
                  have : Node.height (.signatureNode name ti custom s) = 0 := by
                    simp [Node.height]
                  rw [this]
                  simp
              | raisesValueError => simp at hok
              | raisesTypeError => simp at hok
          | vCoroutine pid nm =>
              simp only [Except.ok.injEq, Prod.mk.injEq] at hok
              rw [← hok.1]
              have : Node.height (.coroutineNode name ti custom "coroutine"
                  (nm.getD "unnamed")) = 0 := by
                simp [Node.height]
              rw [this]
              simp
          | vInt pid m =>
              simp only [Except.ok.injEq, Prod.mk.injEq] at hok
              rw [← hok.1]
              have : Node.height (.scalarNode name ti custom (.sInt m)) = 0 := by
                simp [Node.height]
              rw [this]
              simp
          | vBool pid b =>
              simp only [Except.ok.injEq, Prod.mk.injEq] at hok
              rw [← hok.1]
              have : Node.height (.scalarNode name ti custom (.sBool b)) = 0 := by
                simp [Node.height]
              rw [this]
              simp
          | vStr pid str =>
              simp only [Except.ok.injEq, Prod.mk.injEq] at hok
              rw [← hok.1]
              have : Node.height (.scalarNode name ti custom (.sStr str)) = 0 := by
                simp [Node.height]
              rw [this]
              simp
          | vNone pid =>
              simp only [Except.ok.injEq, Prod.mk.injEq] at hok
              rw [← hok.1]
              have : Node.height (.scalarNode name ti custom .sNone) = 0 := by
                simp [Node.height]
              rw [this]
              simp
          | vDatetime pid iso =>
              simp only [Except.ok.injEq, Prod.mk.injEq] at hok
              rw [← hok.1]
              have : Node.height (.scalarNode name ti custom (.sStr iso)) = 0 := by
                simp [Node.height]
              rw [this]
              simp
          | vOpaque pid tn tm r cs =>
              simp only [Except.ok.injEq, Prod.mk.injEq] at hok
              rw [← hok.1]
              have : Node.height (.scalarNode name ti custom
                  (.sStr (safe_repr (.vOpaque pid tn tm r cs)))) = 0 := by
                simp [Node.height]
              rw [this]
              simp

/-! ## Claim theorems -/

/-- C2: for every input, the top-level `inspect_any` call never raises: it
either returns the root node with metadata attached and logs nothing, or —
when an exception escapes the traversal — returns the structured
`{error, variable_name}` object carrying the given variable name and the
formatted message, logging exactly that message once.  The two outcomes are
distinct constructors (distinguishable by the presence of the error field). -/
theorem C2_error_containment :
    ∀ (cfg : Config) (reg : Registry) (S : Sampler) (md : Metadata)
      (v : PyVal) (nm : String),
      (∃ root, inspect_any cfg reg S md v nm = (.success root md, [])) ∨
      (∃ e, inspect_any cfg reg S md v nm =
        (.errorResult ("Error occurred while inspecting " ++ nm ++ ": " ++ errStr e) nm,
          ["Error occurred while inspecting " ++ nm ++ ": " ++ errStr e])) := by
  intro cfg reg S md v nm
  cases h : inspect_recursive cfg reg S v nm 0 [] with
  | ok p =>
      obtain ⟨node, s⟩ := p
      exact Or.inl ⟨node, by simp [inspect_any, h]⟩
  | error e =>
      exact Or.inr ⟨e, by simp [inspect_any, h]⟩

/-- C4 counterexample: with `max_depth = {dict: 0}` and the shared empty dict
`a` in `r = {1: a, 2: a}`, the value `a` is visited twice at depth
`1 > 0 = effective limit`; the claim says every such node becomes a
max-depth-reached marker, but the second occurrence becomes a
circular-reference marker instead, because the identity check (against the
shared, never-unwound seen set) precedes the depth check. -/
theorem C4_counterexample :
    effective_depth_limit cfg4 c4_shared = 0 ∧
    inspect_recursive cfg4 [] takeSampler c4_input "r" 0 [] =
      .ok (.mappingNode "r" ⟨"dict", "builtins", none⟩ none
        [("1", .maxDepthReached "r[1]" "<class \x27dict\x27>"),
         ("2", .circularRef "r[2]")], [2, 1]) := by
  constructor
  · decide
  · have e1 : toString (1 : Int) = "1" := by rfl
    have e2 : toString (2 : Int) = "2" := by rfl
    simp [inspect_recursive, foldElems, foldPairs, foldAttrs, foldMembers,
      renderCustom, effective_depth_limit, cfg4, assocLookup, assocUpsert,
      runtimeType, calculate_dynamic_max_depth, containerLen, get_type_info,
      callableSig, typeModule, PyVal.pid, pyTypeStr, pyRepr, safe_repr,
      sample_large_collection, itemsOf, elemsOf, takeSampler,
      c4_shared, c4_input, Bind.bind, Except.bind, Pure.pure, Except.pure, e1, e2]

/-- C4 (amended): for every node whose value is not already in the traversal's
seen set and whose depth exceeds its effective depth limit, the engine returns
a max-depth-reached marker carrying `str(type(var))` and does not recurse (the
returned seen set records only this value); the marker is a terminal node
carrying no mapping or sequence content.  (The amendment adds the
not-already-seen proviso: the circular check precedes the depth check.) -/
theorem C4_depth_truncation :
    ∀ (cfg : Config) (reg : Registry) (S : Sampler) (v : PyVal) (name : String)
      (d : Nat) (seen : List Nat),
      v.pid ∉ seen → effective_depth_limit cfg v < d →
      inspect_recursive cfg reg S v name d seen =
        .ok (.maxDepthReached name (pyTypeStr v), v.pid :: seen) ∧
      contentKind (.maxDepthReached name (pyTypeStr v)) = .depthMarker := by
  intro cfg reg S v name d seen h1 h2
  exact ⟨inspect_recursive_depth_exceeded cfg reg S v name d seen h1 h2, rfl⟩

/-- C4 witness: the amended depth-truncation theorem applied to a concrete
not-yet-seen empty dict at depth 3 with limit 0. -/
theorem C4_witness :
    (PyVal.vDict 9 none []).pid ∉ ([] : List Nat) ∧
    effective_depth_limit cfg4 (.vDict 9 none []) < 3 ∧
    inspect_recursive cfg4 [] takeSampler (.vDict 9 none []) "w" 3 [] =
      .ok (.maxDepthReached "w" (pyTypeStr (.vDict 9 none [])), [9]) := by
  refine ⟨by decide, by decide, ?_⟩
  exact (C4_depth_truncation cfg4 [] takeSampler (.vDict 9 none []) "w" 3 []
    (by decide) (by decide)).1

/-- C5 counterexample: with `max_depth = {list: 1}`, the root list's effective
limit is 1, but nested plain dicts below it receive the dynamic limit 7, so
the returned tree has height 3 > 1 — the tree's maximum depth is not bounded
by the effective limit of the root's type category. -/
theorem C5_counterexample :
    effective_depth_limit cfg5 c5_input = 1 ∧
    (match inspect_recursive cfg5 [] takeSampler c5_input "v" 0 [] with
     | .ok (n, _) => Node.height n
     | .error _ => 0) = 3 := by
  constructor
  · decide
  · simp [inspect_recursive, foldElems, foldPairs, foldAttrs, foldMembers,
      renderCustom, effective_depth_limit, cfg5, assocLookup, assocUpsert,
      runtimeType, calculate_dynamic_max_depth, containerLen, get_type_info,
      callableSig, typeModule, PyVal.pid, pyTypeStr, pyRepr, safe_repr,
      sample_large_collection, itemsOf, elemsOf, takeSampler,
      c5_input, Bind.bind, Except.bind, Pure.pure, Except.pure, Node.height]

/-- C5 (amended): for every input value the embedded `inspect` is a total
function (termination holds by construction of the shallow embedding), and
whenever the traversal returns a tree, the tree's height is bounded by one
plus the largest effective depth limit of any value occurring in the input —
each expanded node's depth respects its own value's limit, not the root's. -/
theorem C5_depth_bound :
    ∀ (cfg : Config) (reg : Registry) (S : Sampler) (v : PyVal) (name : String)
      (n : Node) (s2 : List Nat),
      inspect_recursive cfg reg S v name 0 [] = .ok (n, s2) →
      Node.height n ≤ maxEffLimit cfg v + 1 := by
  intro cfg reg S v name n s2 h
  have hb := inspect_height_aux cfg reg S (sizeOf v + 1) v (Nat.lt_succ_self _)
    name 0 [] n s2 h
  simp at hb
  omega

/-- C5 witness: the depth bound applied to a concrete two-level list. -/
theorem C5_witness :
    inspect_recursive defaultConfig [] takeSampler (.vList 1 none [.vInt 2 4]) "x" 0 [] =
      .ok (.sequenceNode "x" ⟨"list", "builtins", none⟩ none
        [.scalarNode "x[0]" ⟨"int", "builtins", none⟩ none (.sInt 4)], [2, 1]) ∧
    Node.height (.sequenceNode "x" ⟨"list", "builtins", none⟩ none
        [.scalarNode "x[0]" ⟨"int", "builtins", none⟩ none (.sInt 4)]) ≤
      maxEffLimit defaultConfig (.vList 1 none [.vInt 2 4]) + 1 := by
  have heval : inspect_recursive defaultConfig [] takeSampler
      (.vList 1 none [.vInt 2 4]) "x" 0 [] =
      .ok (.sequenceNode "x" ⟨"list", "builtins", none⟩ none
        [.scalarNode "x[0]" ⟨"int", "builtins", none⟩ none (.sInt 4)], [2, 1]) := by
    simp [inspect_recursive, foldElems, foldPairs, foldAttrs, foldMembers,
      renderCustom, effective_depth_limit, defaultConfig, defaultMaxDepth,
      assocLookup, assocUpsert, runtimeType, calculate_dynamic_max_depth,
      containerLen, get_type_info, callableSig, typeModule, PyVal.pid, pyTypeStr,
      pyRepr, safe_repr, sample_large_collection, itemsOf, elemsOf, takeSampler,
      Bind.bind, Except.bind, Pure.pure, Except.pure]
    decide
  exact ⟨heval, C5_depth_bound defaultConfig [] takeSampler _ "x" _ _ heval⟩

/-- C1 counterexample: `b = [a, a]` shares the list `a` (identity 2) between
two sibling paths; the tree is path-acyclic (no identity repeats along any
root-to-descendant path), yet the second occurrence of `a` is flagged as a
circular-reference marker — the value is not inspected twice, because the
seen set is shared across the whole traversal and never unwound. -/
theorem C1_counterexample :
    pathAcyclic [] c1_input = true ∧
    inspect_recursive defaultConfig [] takeSampler c1_input "b" 0 [] =
      .ok (.sequenceNode "b" ⟨"list", "builtins", none⟩ none
        [.sequenceNode "b[0]" ⟨"list", "builtins", none⟩ none
          [.scalarNode "b[0][0]" ⟨"int", "builtins", none⟩ none (.sInt 7)],
         .circularRef "b[1]"], [3, 2, 1]) := by
  constructor
  · simp [pathAcyclic, allChildren, c1_input, c1_inner, childVals, PyVal.pid]
  · simp [inspect_recursive, foldElems, foldPairs, foldAttrs, foldMembers,
      renderCustom, effective_depth_limit, defaultConfig, defaultMaxDepth,
      assocLookup, assocUpsert, runtimeType, calculate_dynamic_max_depth,
      containerLen, get_type_info, callableSig, typeModule, PyVal.pid, pyTypeStr,
      pyRepr, safe_repr, sample_large_collection, itemsOf, elemsOf, takeSampler,
      c1_input, c1_inner, Bind.bind, Except.bind, Pure.pure, Except.pure]
    decide

/-- C1 (amended): cycle detection is traversal-scoped, not path-scoped.  The
seen identity set is one set threaded through the whole traversal and never
unwound when a subtree's recursion returns (it only grows: every identity in
the set passed in is still in the set handed back), and a call produces a
circular-reference marker exactly when the value's identity is already in
that traversal-wide set — so a value reachable via two independent sibling
paths is flagged at its second occurrence even without an actual cycle. -/
theorem C1_cycle_detection_traversal_scoped :
    ∀ (cfg : Config) (reg : Registry) (S : Sampler) (v : PyVal) (name : String)
      (d : Nat) (seen : List Nat) (n : Node) (s2 : List Nat),
      inspect_recursive cfg reg S v name d seen = .ok (n, s2) →
      seen ⊆ s2 ∧ (n = .circularRef name ↔ v.pid ∈ seen) := by
  intro cfg reg S v name d seen n s2 hok
  refine ⟨inspect_seen_mono cfg reg S v name d seen n s2 hok, ?_, ?_⟩
  · intro hn
    by_contra h1
    by_cases h2 : d > effective_depth_limit cfg v
    · rw [inspect_recursive_depth_exceeded cfg reg S v name d seen h1 h2] at hok
      simp only [Except.ok.injEq, Prod.mk.injEq] at hok
      rw [hn] at hok
      exact absurd hok.1.symm (by simp)
    · obtain ⟨ti, custom, _, _, hkind, _, _⟩ :=
        inspect_ok_node_shape cfg reg S v name d seen n s2 h1 h2 hok
      rw [hn] at hkind
      exact categoryOf_ne_circular v hkind.symm
  · intro h1
    rw [inspect_recursive_mem_seen cfg reg S v name d seen h1] at hok
    simp only [Except.ok.injEq, Prod.mk.injEq] at hok
    exact hok.1.symm

/-- C1 witness: the amended theorem applied to a concrete scalar inspection
(discharging the success-equation hypothesis by evaluation). -/
theorem C1_witness :
    inspect_recursive defaultConfig [] takeSampler (.vInt 5 3) "x" 0 [9] =
      .ok (.scalarNode "x" ⟨"int", "builtins", none⟩ none (.sInt 3), [5, 9]) ∧
    [9] ⊆ [5, 9] ∧
    (Node.scalarNode "x" ⟨"int", "builtins", none⟩ none (.sInt 3) =
        .circularRef "x" ↔ (PyVal.vInt 5 3).pid ∈ [9]) := by
  have heval : inspect_recursive defaultConfig [] takeSampler (.vInt 5 3) "x" 0 [9] =
      .ok (.scalarNode "x" ⟨"int", "builtins", none⟩ none (.sInt 3), [5, 9]) := by
    simp [inspect_recursive, renderCustom, effective_depth_limit, defaultConfig,
      defaultMaxDepth, assocLookup, runtimeType, calculate_dynamic_max_depth,
      containerLen, get_type_info, callableSig, typeModule, PyVal.pid,
      Bind.bind, Except.bind, Pure.pure, Except.pure]
  exact ⟨heval,
    C1_cycle_detection_traversal_scoped defaultConfig [] takeSampler
      (.vInt 5 3) "x" 0 [9] _ _ heval⟩

theorem dynamic_clamp_cast (q : Nat) :
    (min (10 : Int) (max 1 (7 - (q : Int)))).toNat = min 10 (max 1 (7 - q)) := by
  rcases le_or_lt 7 q with h | h
  · have hN : (7 : Nat) - q = 0 := Nat.sub_eq_zero_of_le h
    have hI : (7 : Int) - (q : Int) ≤ 1 := by
      have h2 : (7 : Int) ≤ (q : Int) := by exact_mod_cast h
      omega
    rw [hN, max_eq_left hI]
    decide
  · have hN : 1 ≤ 7 - q := by omega
    have h10 : 7 - q ≤ 10 := by omega
    have hI1 : (1 : Int) ≤ 7 - (q : Int) := by
      have h2 : (q : Int) < 7 := by exact_mod_cast h
      omega
    have hI10 : (7 : Int) - (q : Int) ≤ 10 := by omega
    rw [max_eq_right hI1, min_eq_right hI10, max_eq_right hN, min_eq_right h10]
    have hcast : (7 : Int) - (q : Int) = ((7 - q : Nat) : Int) := by omega
    rw [hcast]
    exact Int.toNat_natCast _

/-- C6: the effective depth limit agrees with the specified rule everywhere:
an explicit `max_depth` entry for the exact runtime type is used as is;
otherwise container-shaped values of size `n` get
`clamp(7 - floor(n / 100), 1, 10)` (computed here over `Int`, exactly as the
spec words it) and every other value gets the fixed default 5. -/
theorem C6_effective_depth_limit :
    ∀ (cfg : Config) (v : PyVal),
      effective_depth_limit cfg v =
        (match assocLookup cfg.max_depth (runtimeType v) with
         | some l => l
         | none =>
             match containerLen v with
             | some sz => (min (10 : Int) (max 1 (7 - (sz : Int) / 100))).toNat
             | none => 5) := by
  intro cfg v
  unfold effective_depth_limit calculate_dynamic_max_depth
  cases assocLookup cfg.max_depth (runtimeType v) with
  | some l => rfl
  | none =>
      cases hc : containerLen v with
      | none => rfl
      | some sz =>
          simp only [Option.getD]
          have hq : (sz : Int) / 100 = ((sz / 100 : Nat) : Int) :=
            (Int.ofNat_ediv sz 100).symm
          rw [hq]
          exact (dynamic_clamp_cast (sz / 100)).symm

/-- C8 counterexample: for the function value whose signature extraction
raises `ValueError`, classification (`get_type_info`) does catch the failure
and substitutes the placeholder — but the function branch of the traversal
re-extracts the signature unguarded, so the failure reaches the root
boundary and the caller receives the structured error result. -/
theorem C8_counterexample :
    get_type_info c8_input =
      .ok ⟨"function", "builtins", some "Unable to determine signature"⟩ ∧
    inspect_any defaultConfig [] takeSampler md0 c8_input "f" =
      (.errorResult "Error occurred while inspecting f: ValueError" "f",
       ["Error occurred while inspecting f: ValueError"]) := by
  constructor
  · rfl
  · simp [inspect_any, inspect_recursive, renderCustom, effective_depth_limit,
      defaultConfig, defaultMaxDepth, assocLookup, runtimeType,
      calculate_dynamic_max_depth, containerLen, get_type_info, callableSig,
      typeModule, PyVal.pid, c8_input, errStr,
      Bind.bind, Except.bind, Pure.pure, Except.pure]

/-- C8 (amended): a `ValueError` from signature extraction is caught only
inside `get_type_info`, where it is replaced by the fixed placeholder
"Unable to determine signature", so classification succeeds; but for
function/method values the signature is extracted a second time, unguarded,
in the signature branch, so the same failure there escapes to the root
failure boundary (the call returns an exception instead of a node). -/
theorem C8_signature_extraction :
    ∀ (v : PyVal) (cfg : Config) (reg : Registry) (S : Sampler) (i : Nat)
      (fn name : String) (d : Nat) (seen : List Nat),
      (callableSig v = some .raisesValueError →
        get_type_info v =
          .ok ⟨runtimeType v, typeModule v, some "Unable to determine signature"⟩) ∧
      ((PyVal.vFunction i fn .raisesValueError).pid ∉ seen →
        ¬ d > effective_depth_limit cfg (.vFunction i fn .raisesValueError) →
        assocLookup reg "function" = none →
        inspect_recursive cfg reg S (.vFunction i fn .raisesValueError) name d seen =
          .error .valueError) := by
  intro v cfg reg S i fn name d seen
  constructor
  · intro hcs
    unfold get_type_info
    rw [hcs]
  · intro h1 h2 hreg
    rw [inspect_recursive]
    rw [if_neg h1]
    simp only [if_neg h2]
    simp [get_type_info, callableSig, renderCustom, runtimeType, hreg,
      Bind.bind, Except.bind, Pure.pure, Except.pure]

/-- C8 witness: both parts of the amended theorem at a concrete function
value whose signature extraction raises `ValueError`. -/
theorem C8_witness :
    get_type_info (.vFunction 3 "g" .raisesValueError) =
      .ok ⟨"function", "builtins", some "Unable to determine signature"⟩ ∧
    inspect_recursive defaultConfig [] takeSampler
      (.vFunction 3 "g" .raisesValueError) "g" 0 [] = .error .valueError := by
  have h := C8_signature_extraction (.vFunction 3 "g" .raisesValueError)
    defaultConfig [] takeSampler 3 "g" "g" 0 []
  exact ⟨h.1 (by rfl), h.2 (by decide) (by decide) (by rfl)⟩

/-- C3 (code-bug evaluation): `sample_large_collection` returns every
`dict_items` view unchanged — the `isinstance(collection, (list, tuple, set))`
guard is false for the view the mapping branch passes in — so mappings are
never sampled: inspecting the 3-entry mapping `{1: 10, 2: 20, 3: 30}` with
`sample_size = 2` yields mapping content with all 3 entries, not 2 as the
claim (and the sampler call site) intends. -/
theorem C3_mapping_never_sampled :
    (∀ (k : Nat) (S : Sampler) (pairs : List (PyVal × PyVal)),
        sample_large_collection k S (.dictItems pairs) = .dictItems pairs) ∧
    cfg3.sample_size = 2 ∧ containerLen c3_input = some 3 ∧
    (match inspect_recursive cfg3 [] takeSampler c3_input "d" 0 [] with
     | .ok (n, _) => mappingCount n
     | .error _ => none) = some 3 := by
  refine ⟨fun k S pairs => rfl, rfl, rfl, ?_⟩
  have e1 : toString (1 : Int) = "1" := by rfl
  have e2 : toString (2 : Int) = "2" := by rfl
  have e3 : toString (3 : Int) = "3" := by rfl
  simp [inspect_recursive, foldElems, foldPairs, foldAttrs, foldMembers,
    renderCustom, effective_depth_limit, cfg3, defaultMaxDepth, assocLookup,
    assocUpsert, runtimeType, calculate_dynamic_max_depth, containerLen,
    get_type_info, callableSig, typeModule, PyVal.pid, pyTypeStr, pyRepr,
    safe_repr, sample_large_collection, itemsOf, elemsOf, takeSampler,
    c3_input, mappingCount, e1, e2, e3,
    Bind.bind, Except.bind, Pure.pure, Except.pure]

/-- C7: after `register_renderer(T, f)`, a non-marker node (value not already
seen, depth within limit) for a value whose exact runtime type is `T` carries
`customRendering = f(value)` as an overlay in addition to its normal
category-selected content field; and whenever the registry has no entry for
the value's exact runtime type — in particular for any value whose runtime
type is a proper subtype of `T`, since lookup is by exact type name — the
node carries no custom rendering, with its category content intact. -/
theorem C7_renderer_overlay :
    ∀ (cfg : Config) (reg : Registry) (S : Sampler) (T : String) (f : Renderer)
      (v : PyVal) (name : String) (d : Nat) (seen : List Nat) (n : Node)
      (s2 : List Nat),
      v.pid ∉ seen → ¬ d > effective_depth_limit cfg v →
      inspect_recursive cfg (register_renderer reg T f) S v name d seen = .ok (n, s2) →
      (∀ r, runtimeType v = T → f v = .ok r →
        customOf n = some r ∧ contentKind n = categoryOf v) ∧
      (assocLookup (register_renderer reg T f) (runtimeType v) = none →
        customOf n = none ∧ contentKind n = categoryOf v) := by
  intro cfg reg S T f v name d seen n s2 h1 h2 hok
  obtain ⟨ti, custom, hti, hc, hkind, hcust, _⟩ :=
    inspect_ok_node_shape cfg (register_renderer reg T f) S v name d seen n s2 h1 h2 hok
  constructor
  · intro r hT hf
    have hl : assocLookup (register_renderer reg T f) (runtimeType v) = some f := by
      rw [hT]
      exact assocLookup_upsert_self reg T f
    unfold renderCustom at hc
    rw [hl] at hc
    simp [hf, Bind.bind, Except.bind, Pure.pure, Except.pure] at hc
    subst hc
    exact ⟨hcust, hkind⟩
  · intro hnone
    unfold renderCustom at hc
    rw [hnone] at hc
    simp at hc
    subst hc
    exact ⟨hcust, hkind⟩

/-- C7 witness: the overlay theorem at a concrete empty dict after
registering a renderer for exactly the type `dict`. -/
theorem C7_witness :
    inspect_recursive defaultConfig c7_reg takeSampler (.vDict 1 none []) "x" 0 [] =
      .ok (.mappingNode "x" ⟨"dict", "builtins", none⟩ (some "rendered") [], [1]) ∧
    customOf (.mappingNode "x" ⟨"dict", "builtins", none⟩ (some "rendered") []) =
      some "rendered" ∧
    contentKind (.mappingNode "x" ⟨"dict", "builtins", none⟩ (some "rendered") []) =
      categoryOf (.vDict 1 none []) := by
  have heval : inspect_recursive defaultConfig c7_reg takeSampler
      (.vDict 1 none []) "x" 0 [] =
      .ok (.mappingNode "x" ⟨"dict", "builtins", none⟩ (some "rendered") [], [1]) := by
    simp [inspect_recursive, foldElems, foldPairs, foldAttrs, foldMembers,
      renderCustom, effective_depth_limit, defaultConfig, defaultMaxDepth,
      assocLookup, assocUpsert, runtimeType, calculate_dynamic_max_depth,
      containerLen, get_type_info, callableSig, typeModule, PyVal.pid,
      sample_large_collection, itemsOf, elemsOf, takeSampler,
      c7_reg, c7_renderer, register_renderer,
      Bind.bind, Except.bind, Pure.pure, Except.pure]
  have h := (C7_renderer_overlay defaultConfig [] takeSampler "dict" c7_renderer
    (.vDict 1 none []) "x" 0 [] _ _ (by decide) (by decide) heval).1
    "rendered" (by rfl) (by rfl)
  exact ⟨heval, h⟩

/-- C9: for a list whose length exceeds `sample_size` (and which is not
already seen and within its depth limit), the successfully produced node is a
sequence node whose content has exactly `sample_size` entries, each the
inspection of an element of the original list (sampling without replacement
draws from the original elements before recursion). -/
theorem C9_sequence_sampling_bound :
    ∀ (cfg : Config) (reg : Registry) (S : Sampler) (pid : Nat)
      (st : Option String) (elems : List PyVal) (name : String) (d : Nat)
      (seen : List Nat) (n : Node) (s2 : List Nat),
      elems.length > cfg.sample_size →
      (PyVal.vList pid st elems).pid ∉ seen →
      ¬ d > effective_depth_limit cfg (.vList pid st elems) →
      inspect_recursive cfg reg S (.vList pid st elems) name d seen = .ok (n, s2) →
      ∃ ti custom kids, n = .sequenceNode name ti custom kids ∧
        kids.length = cfg.sample_size ∧
        ∀ c ∈ kids, ∃ x ∈ elems, ∃ (j : Nat) (s s1 : List Nat),
          inspect_recursive cfg reg S x (name ++ "[" ++ toString j ++ "]")
            (d + 1) s = .ok (c, s1) := by
  intro cfg reg S pid st elems name d seen n s2 hlen h1 h2 hok
  rw [inspect_recursive] at hok
  rw [if_neg h1] at hok
  simp only [if_neg h2] at hok
  obtain ⟨ti, hti, hok⟩ := bind_ok_inv hok
  obtain ⟨custom, hc, hok⟩ := bind_ok_inv hok
  obtain ⟨⟨kids, s3⟩, hfold, hok⟩ := bind_ok_inv hok
  simp only [Except.ok.injEq, Prod.mk.injEq] at hok
  have hsam : elemsOf (sample_large_collection cfg.sample_size S (.pyList elems)) =
      S.sample elems cfg.sample_size := by
    simp [sample_large_collection, elemsOf, hlen]
  rw [hsam] at hfold
  refine ⟨ti, custom, kids, hok.1.symm, ?_, ?_⟩
  · have hlen2 := foldElems_length _ _ _ _ _ _ hfold
    rw [hlen2]
    exact S.length_sample elems cfg.sample_size (le_of_lt hlen)
  · intro c hcmem
    obtain ⟨x, hx, j, s, s1, hh⟩ := foldElems_provenance _ _ _ _ _ _ hfold c hcmem
    exact ⟨x, S.mem_of_sample _ _ _ hx, j, s, s1, hh⟩

/-- C9 witness: the sampling bound applied to a concrete 3-element list with
`sample_size = 2` and the take-first sampler. -/
theorem C9_witness :
    ([PyVal.vInt 10 1, .vInt 11 2, .vInt 12 3] : List PyVal).length >
      cfg3.sample_size ∧
    inspect_recursive cfg3 [] takeSampler
      (.vList 1 none [.vInt 10 1, .vInt 11 2, .vInt 12 3]) "l" 0 [] =
      .ok (.sequenceNode "l" ⟨"list", "builtins", none⟩ none
        [.scalarNode "l[0]" ⟨"int", "builtins", none⟩ none (.sInt 1),
         .scalarNode "l[1]" ⟨"int", "builtins", none⟩ none (.sInt 2)], [11, 10, 1]) ∧
    (∃ ti custom kids,
      Node.sequenceNode "l" ⟨"list", "builtins", none⟩ none
        [.scalarNode "l[0]" ⟨"int", "builtins", none⟩ none (.sInt 1),
         .scalarNode "l[1]" ⟨"int", "builtins", none⟩ none (.sInt 2)] =
        .sequenceNode "l" ti custom kids ∧
      kids.length = cfg3.sample_size ∧
      ∀ c ∈ kids, ∃ x ∈ ([PyVal.vInt 10 1, .vInt 11 2, .vInt 12 3] : List PyVal),
        ∃ (j : Nat) (s s1 : List Nat),
          inspect_recursive cfg3 [] takeSampler x ("l" ++ "[" ++ toString j ++ "]")
            (0 + 1) s = .ok (c, s1)) := by
  have heval : inspect_recursive cfg3 [] takeSampler
      (.vList 1 none [.vInt 10 1, .vInt 11 2, .vInt 12 3]) "l" 0 [] =
      .ok (.sequenceNode "l" ⟨"list", "builtins", none⟩ none
        [.scalarNode "l[0]" ⟨"int", "builtins", none⟩ none (.sInt 1),
         .scalarNode "l[1]" ⟨"int", "builtins", none⟩ none (.sInt 2)],
        [11, 10, 1]) := by
    simp [inspect_recursive, foldElems, foldPairs, foldAttrs, foldMembers,
      renderCustom, effective_depth_limit, cfg3, defaultMaxDepth, assocLookup,
      assocUpsert, runtimeType, calculate_dynamic_max_depth, containerLen,
      get_type_info, callableSig, typeModule, PyVal.pid, pyTypeStr, pyRepr,
      safe_repr, sample_large_collection, itemsOf, elemsOf, takeSampler,
      Bind.bind, Except.bind, Pure.pure, Except.pure]
    decide
  refine ⟨by decide, heval, ?_⟩
  exact C9_sequence_sampling_bound cfg3 [] takeSampler 1 none
    [.vInt 10 1, .vInt 11 2, .vInt 12 3] "l" 0 [] _ _
    (by decide) (by decide) (by decide) heval

/-- Passing the include filter implies the name is not reserved. -/
theorem should_include_true_not_reserved (ip : Bool) (k : String)
    (h : should_include_attribute ip k = true) : k ∉ reservedNames := by
  intro hk
  have hm : k = "__dict__" ∨ k = "__weakref__" ∨ k = "__module__" := by
    simpa [reservedNames] using hk
  rcases hm with rfl | rfl | rfl <;> cases ip <;>
    simp [should_include_attribute, reservedNames] at h

/-- C10: the three reserved member names are excluded from every enumerated
contents dict unconditionally — `should_include_attribute` rejects them for
both settings of `include_private`; with `include_private = true` the filter
is exactly "not reserved" (the option only controls other names, those
beginning with an underscore, which the `include_private = false` form
additionally rejects); and every member name appearing in a produced node's
module contents, class contents or attributes passed the filter, hence is not
reserved. -/
theorem C10_reserved_member_exclusion :
    (∀ (ip : Bool) (k : String), k ∈ reservedNames →
      should_include_attribute ip k = false) ∧
    (∀ k : String, should_include_attribute true k = !(reservedNames.contains k)) ∧
    (∀ k : String, should_include_attribute false k =
      (!(k.startsWith "_") && !(reservedNames.contains k))) ∧
    (∀ (cfg : Config) (reg : Registry) (S : Sampler) (v : PyVal) (name : String)
      (d : Nat) (seen : List Nat) (n : Node) (s2 : List Nat),
      inspect_recursive cfg reg S v name d seen = .ok (n, s2) →
      ∀ k ∈ contentKeys n,
        should_include_attribute cfg.include_private k = true ∧ k ∉ reservedNames) := by
  refine ⟨?_, ?_, ?_, ?_⟩
  · intro ip k hk
    have hm : k = "__dict__" ∨ k = "__weakref__" ∨ k = "__module__" := by
      simpa [reservedNames] using hk
    rcases hm with rfl | rfl | rfl <;> cases ip <;>
      simp [should_include_attribute, reservedNames]
  · intro k
    simp [should_include_attribute]
  · intro k
    by_cases hs : k.startsWith "_" <;> simp [should_include_attribute, hs]
  · intro cfg reg S v name d seen n s2 hok k hk
    by_cases h1 : v.pid ∈ seen
    · rw [inspect_recursive_mem_seen cfg reg S v name d seen h1] at hok
      simp only [Except.ok.injEq, Prod.mk.injEq] at hok
      rw [← hok.1] at hk
      simp [contentKeys] at hk
    · by_cases h2 : d > effective_depth_limit cfg v
      · rw [inspect_recursive_depth_exceeded cfg reg S v name d seen h1 h2] at hok
        simp only [Except.ok.injEq, Prod.mk.injEq] at hok
        rw [← hok.1] at hk
        simp [contentKeys] at hk
      · obtain ⟨ti, custom, _, _, _, _, hinc⟩ :=
          inspect_ok_node_shape cfg reg S v name d seen n s2 h1 h2 hok
        exact ⟨hinc k hk, should_include_true_not_reserved _ k (hinc k hk)⟩

/-- C10 witness: the engine-level exclusion applied to a concrete module
carrying the reserved member `__dict__`, a private member `_priv` and an
ordinary member `x`, with `include_private = True`: the reserved member is
still omitted while both other members (the underscore one included) appear,
and every produced key passes the filter and avoids the reserved set. -/
theorem C10_witness :
    inspect_recursive cfg10 [] takeSampler c10_input "m" 0 [] =
      .ok (.moduleNode "m" ⟨"module", "builtins", none⟩ none
        [("_priv", ⟨"int", "builtins", none⟩), ("x", ⟨"int", "builtins", none⟩)],
        [1]) ∧
    (∀ k ∈ contentKeys (.moduleNode "m" ⟨"module", "builtins", none⟩ none
        [("_priv", ⟨"int", "builtins", none⟩), ("x", ⟨"int", "builtins", none⟩)]),
      should_include_attribute cfg10.include_private k = true ∧
      k ∉ reservedNames) := by
  have heval : inspect_recursive cfg10 [] takeSampler c10_input "m" 0 [] =
      .ok (.moduleNode "m" ⟨"module", "builtins", none⟩ none
        [("_priv", ⟨"int", "builtins", none⟩), ("x", ⟨"int", "builtins", none⟩)],
        [1]) := by
    simp [inspect_recursive, foldElems, foldPairs, foldAttrs, foldMembers,
      renderCustom, effective_depth_limit, cfg10, defaultMaxDepth,
      assocLookup, assocUpsert, runtimeType, calculate_dynamic_max_depth,
      containerLen, get_type_info, callableSig, typeModule, PyVal.pid,
      should_include_attribute, reservedNames, sample_large_collection,
      itemsOf, elemsOf, takeSampler, c10_input,
      Bind.bind, Except.bind, Pure.pure, Except.pure]
  exact ⟨heval,
    C10_reserved_member_exclusion.2.2.2 cfg10 [] takeSampler c10_input
      "m" 0 [] _ _ heval⟩

end VariableInspector
